import Mathlib

/-!
# GitOps agent: the reconciliation pipeline

A shallow embedding of `definitions/infra/gitops-agent/service/main.go`.

* Go strings are Lean `String`s (valid UTF-8 only), Go `error` values are
  `Option`s of an error type (`none` is Go's `nil`).
* The process-wide variables `rules`, `ready`, `repoState` and `history` are the
  fields of `Agent`; every function that writes one of them returns the new
  `Agent`.
* Everything that the agent reads from outside the process during one tick
  (registry answers, key material, signatures, the outcome of the pull and of the
  cluster calls, the clock) is a field of `World`.  A `World` fixes the outcome
  of each external call; it does not restrict them.
* `regexp.Compile` is a parameter `compile`; a compiled expression is
  represented by its `MatchString` method.
-/

namespace GitopsAgent

/-! ## Data model -/

/-- The `Tag` struct. -/
structure Tag where
  Name : String
  Digest : String
  Annotations : List (String × String)
deriving DecidableEq, Repr

/-- Go `m[k]` on a `map[string]string` kept as an association list: the value
stored under `k`, and the zero value `""` when `k` is not a key. -/
def mapIndex : List (String × String) → String → String
  | [], _ => ""
  | (k, v) :: m, x => if k = x then v else mapIndex m x

/-- Go `m[k] = v` on a `map[string]string`: the value under an existing key is
replaced, a new key is added. -/
def mapAssign : List (String × String) → String → String → List (String × String)
  | [], k, v => [(k, v)]
  | (k', v') :: m, k, v => if k' = k then (k, v) :: m else (k', v') :: mapAssign m k v

/-- The keys of a `map[string]string`. -/
def mapKeys (m : List (String × String)) : List String := m.map Prod.fst

/-- The `OCIRepositoryInfo` struct; `LastUpdated` is a clock reading. -/
structure OCIRepositoryInfo where
  LastUpdated : Nat
  Tags : List Tag
  Applied : List (String × String)
deriving DecidableEq, Repr

/-- Source function `NewOCIRepositoryInfo`: no tags, an empty `Applied` map. -/
def NewOCIRepositoryInfo : OCIRepositoryInfo :=
  { LastUpdated := 0, Tags := [], Applied := [] }

/-- Source function `OCIRepositoryInfo.AddTag`: appends the tag without its annotations. -/
def OCIRepositoryInfo.AddTag (r : OCIRepositoryInfo) (tag : Tag) : OCIRepositoryInfo :=
  { r with Tags := r.Tags ++ [{ Name := tag.Name, Digest := tag.Digest, Annotations := [] }] }

/-- Source function `OCIRepositoryInfo.MarkApplied`: `r.Applied[tag.Name] = tag.Digest`. -/
def OCIRepositoryInfo.MarkApplied (r : OCIRepositoryInfo) (tag : Tag) : OCIRepositoryInfo :=
  { r with Applied := mapAssign r.Applied tag.Name tag.Digest }

/-- The `HistoryEntry` struct. -/
structure HistoryEntry where
  Timestamp : Nat
  Operation : String
  Details : String
deriving DecidableEq, Repr

/-- The zero value of `HistoryEntry`. -/
def HistoryEntry.zero : HistoryEntry := { Timestamp := 0, Operation := "", Details := "" }

/-- The `TaskHistory` struct.  `entries` is the array `[100]HistoryEntry`, kept
as a list; the mutex is left out. -/
structure TaskHistory where
  entries : List HistoryEntry
  pos : Nat
  count : Nat
deriving DecidableEq, Repr

/-- The value `init` gives `history`: a zeroed array of 100 entries. -/
def TaskHistory.empty : TaskHistory :=
  { entries := List.replicate 100 HistoryEntry.zero, pos := 0, count := 0 }

/-- Source function `TaskHistory.AddEntry`; `now` is the reading of `time.Now()`. -/
def TaskHistory.AddEntry (h : TaskHistory) (now : Nat) (operation details : String) :
    TaskHistory :=
  { entries := h.entries.set h.pos
      { Timestamp := now, Operation := operation, Details := details }
    pos := (h.pos + 1) % h.entries.length
    count := if h.count < h.entries.length then h.count + 1 else h.count }

/-- One `AddEntry` call per element of `es`, in order. -/
def TaskHistory.addAll (h : TaskHistory) (es : List HistoryEntry) : TaskHistory :=
  es.foldl (fun acc e => acc.AddEntry e.Timestamp e.Operation e.Details) h

/-! ## Rules -/

/-- A compiled `*regexp.Regexp`, represented by its `MatchString` method. -/
abbrev Regexp := String → Bool

/-- The `Rules` struct; `matcher = none` is the nil pointer. -/
structure Rules where
  RepositoryURL : String
  Only : String
  matcher : Option Regexp

/-- Source function `NewRules`. -/
def NewRules : Rules := { RepositoryURL := "", Only := "", matcher := none }

/-- Source function `Rules.Matches`: the answer and the receiver after the call.  A failed
`regexp.Compile` hands back a nil matcher, which is what gets stored. -/
def Rules.Matches (compile : String → Option Regexp) (r : Rules) (tag : String) :
    Bool × Rules :=
  match r.matcher with
  | none =>
    match compile r.Only with
    | none => (false, { r with matcher := none })
    | some m => (m tag, { r with matcher := some m })
  | some m => (m tag, r)

/-! ## Process state -/

/-- The process-wide variables the reconciler reads and writes. -/
structure Agent where
  rules : Rules
  ready : Bool
  repoState : OCIRepositoryInfo
  history : TaskHistory

/-! ## String helpers -/

/-- Go `strings.HasSuffix`. -/
def HasSuffix (s suffix : String) : Bool := suffix.data.isSuffixOf s.data

/-- The call `regexp.MustCompile("^([^/]+)/(.+)$").FindStringSubmatch(url)`, specialised to
this one expression: `[^/]+` takes the longest run of characters other than `/`
(it has to be followed by `/`, so no shorter run can match) and must not be
empty; `/` is the next character; `.+` is what remains, not empty, and since `.`
does not match a line feed and `$` is the end of the text, free of line feeds.
The result is nil (here `[]`) when there is no match, and otherwise the whole
match followed by the two groups. -/
def FindStringSubmatch (url : String) : List String :=
  let host := url.data.takeWhile (fun c => c != '/')
  match url.data.dropWhile (fun c => c != '/') with
  | [] => []
  | _ :: path =>
    if host.isEmpty || path.isEmpty || path.any (fun c => c == '\n') then []
    else [url, String.mk host, String.mk path]

/-! ## The outside world -/

/-- What `http.Get` on the `tags/list` URL gives: a transport error, or a
response with its status code and, when the body decodes as JSON, its `tags`
array (`none` is a body that does not decode). -/
inductive TagsListResponse where
  | transportError
  | response (statusCode : Nat) (tags : Option (List String))
deriving DecidableEq, Repr

/-- What the manifest request gives: `http.NewRequest` fails, `client.Do`
fails, or a response with its status code, its `Docker-Content-Digest` header
(`""` when the header is absent) and, when the body decodes as JSON, its
`annotations`. -/
inductive ManifestResponse where
  | requestError
  | transportError
  | response (statusCode : Nat) (digestHeader : String)
      (annotations : Option (List (String × String)))
deriving DecidableEq, Repr

/-- One element of the signature list of a signed entity, given by the outcome
of each call `verifyTag` makes on it: `Base64Signature()` and `Payload()` (`none`
is an error), whether `base64.StdEncoding.DecodeString` accepts the signature,
the `critical.image.docker-manifest-digest` that `json.Unmarshal` reads from the
payload (`none` is a payload that does not parse), and whether
`verifier.VerifySignature` returns nil. -/
structure Signature where
  base64Signature : Option String
  payload : Option String
  decodes : Bool
  signedDigest : Option String
  verifies : Bool
deriving DecidableEq, Repr

/-- The outcome of each external step of one `verifyTag` call, in source
order; `true` is a nil error. -/
structure VerifyEnv where
  parseReference : String → Bool
  readKeyFile : Bool
  decodeKey : Bool
  parseKey : Bool
  keyIsECDSA : Bool
  loadVerifier : Bool
  signedEntity : Bool
  signatures : Bool
  sigsGet : Bool
  sigList : List Signature

/-- The outcome of each external step of one `applyTag` call, in source order,
and the clock reading of its `AddEntry`. -/
structure ApplyEnv where
  fileStore : Bool
  newRepository : Bool
  copy : Bool
  applyFiles : Bool
  now : Nat
deriving DecidableEq, Repr

/-- The outside world during one tick.  `manifest i url` answers the manifest
request made for the `i`-th name of the registry's tag list; `verify j tag` and
`apply j tag` are the environments of the calls made for the `j`-th fetched
tag; `now` is the clock at the end of the tick. -/
structure World where
  tagsList : String → TagsListResponse
  manifest : Nat → String → ManifestResponse
  verify : Nat → Tag → VerifyEnv
  apply : Nat → Tag → ApplyEnv
  now : Nat

/-! ## Errors -/

/-- The errors of `fetchTagMetadata`. -/
inductive MetadataError where
  | creatingRequest
  | fetchingManifest
  | unexpectedStatus (statusCode : Nat)
  | decodingManifest
deriving DecidableEq, Repr

/-- The errors of `fetchTags`. -/
inductive FetchError where
  | checkingRepository
  | unexpectedStatus (statusCode : Nat)
  | parsingJSON
deriving DecidableEq, Repr

/-- The errors of `verifyTag`, one per `fmt.Errorf` of the source. -/
inductive VerifyError where
  | invalidImageReference
  | readPublicKey
  | decodePublicKey
  | parsePublicKey
  | invalidKeyType
  | createVerifier
  | fetchSignedEntity
  | extractSignatures
  | listSignatures
  | noSignaturesFound
  | getBase64Signature
  | getPayload
  | decodeSignature
  | parsePayload
  | digestMismatch (expected signed : String)
  | signatureInvalid
  | noValidSignatures
deriving DecidableEq, Repr

/-- The errors of `applyTag`.  After a failed `NewRepository` the source writes
to the nil repository before it looks at the error; the process ends there as
it does on every other error of `applyTag`. -/
inductive ApplyError where
  | creatingFileStore
  | creatingRepository
  | copyingTag
  | applyingFiles
deriving DecidableEq, Repr

/-- The errors of `checkRepository`. -/
inductive CheckError where
  | invalidRepositoryURL (url : String)
  | fetchingTags (e : FetchError)
deriving DecidableEq, Repr

/-! ## Registry client -/

/-- Source function `fetchTagMetadata`, for the `i`-th name of the tag list. -/
def fetchTagMetadata (w : World) (i : Nat) (registry repository tagName : String) :
    Except MetadataError Tag :=
  let manifestURL := "http://" ++ registry ++ "/v2/" ++ repository ++ "/manifests/" ++ tagName
  match w.manifest i manifestURL with
  | .requestError => .error .creatingRequest
  | .transportError => .error .fetchingManifest
  | .response statusCode digestHeader annotations =>
    if statusCode != 200 then .error (.unexpectedStatus statusCode)
    else
      match annotations with
      | none => .error .decodingManifest
      | some ann => .ok { Name := tagName, Digest := digestHeader, Annotations := ann }

/-- The loop of `fetchTags` over `tagsResponse.Tags`, from index `i` on: the
receiver of `Matches` after the loop and the tags appended.  The three tests
are evaluated left to right, as `||` does. -/
def fetchTagsLoop (compile : String → Option Regexp) (w : World)
    (registry repository : String) (applied : List (String × String)) :
    Nat → List String → Rules → Rules × List Tag
  | _, [], r => (r, [])
  | i, tagName :: rest, r =>
    if HasSuffix tagName ".sig" then
      fetchTagsLoop compile w registry repository applied (i + 1) rest r
    else
      let m := r.Matches compile tagName
      if !m.1 then fetchTagsLoop compile w registry repository applied (i + 1) rest m.2
      else if mapIndex applied tagName != "" then
        fetchTagsLoop compile w registry repository applied (i + 1) rest m.2
      else
        match fetchTagMetadata w i registry repository tagName with
        | .error _ => fetchTagsLoop compile w registry repository applied (i + 1) rest m.2
        | .ok tag =>
          let out := fetchTagsLoop compile w registry repository applied (i + 1) rest m.2
          (out.1, tag :: out.2)

/-- Source function `fetchTags`: the agent afterwards (only the matcher of `rules` can have
changed) and the result; `.ok none` is the nil slice returned on status 404. -/
def fetchTags (compile : String → Option Regexp) (w : World) (registry repository : String)
    (a : Agent) : Agent × Except FetchError (Option (List Tag)) :=
  let url := "http://" ++ registry ++ "/v2/" ++ repository ++ "/tags/list"
  match w.tagsList url with
  | .transportError => (a, .error .checkingRepository)
  | .response statusCode tags =>
    if statusCode == 404 then (a, .ok none)
    else if statusCode != 200 then (a, .error (.unexpectedStatus statusCode))
    else
      match tags with
      | none => (a, .error .parsingJSON)
      | some names =>
        let out := fetchTagsLoop compile w registry repository a.repoState.Applied 0 names a.rules
        ({ a with rules := out.1 }, .ok (some out.2))

/-! ## Signature verification -/

/-- How one pass through the body of a `for` loop ends: with a `return`, or by
going on to the next element. -/
inductive LoopStep where
  | ret (err : Option VerifyError)
  | next
deriving DecidableEq, Repr

/-- The body of the loop of `verifyTag` over `sigList`, for one signature. -/
def verifySignature (tag : Tag) (sig : Signature) : LoopStep :=
  match sig.base64Signature with
  | none => .ret (some .getBase64Signature)
  | some _ =>
    match sig.payload with
    | none => .ret (some .getPayload)
    | some _ =>
      if !sig.decodes then .ret (some .decodeSignature)
      else
        match sig.signedDigest with
        | none => .ret (some .parsePayload)
        | some signedDigest =>
          if signedDigest != tag.Digest then
            .ret (some (.digestMismatch tag.Digest signedDigest))
          else if !sig.verifies then .ret (some .signatureInvalid)
          else .ret none

/-- The loop of `verifyTag` over `sigList`, and the `return` that follows it. -/
def verifySignatures (tag : Tag) : List Signature → Option VerifyError
  | [] => some .noValidSignatures
  | sig :: rest =>
    match verifySignature tag sig with
    | .ret err => err
    | .next => verifySignatures tag rest

/-- Source function `verifyTag`; `none` is the nil error, the tag is accepted. -/
def verifyTag (env : VerifyEnv) (rules : Rules) (tag : Tag) : Option VerifyError :=
  let imageRef := rules.RepositoryURL ++ "@" ++ tag.Digest
  if !env.parseReference imageRef then some .invalidImageReference
  else if !env.readKeyFile then some .readPublicKey
  else if !env.decodeKey then some .decodePublicKey
  else if !env.parseKey then some .parsePublicKey
  else if !env.keyIsECDSA then some .invalidKeyType
  else if !env.loadVerifier then some .createVerifier
  else if !env.signedEntity then some .fetchSignedEntity
  else if !env.signatures then some .extractSignatures
  else if !env.sigsGet then some .listSignatures
  else if env.sigList.length == 0 then some .noSignaturesFound
  else verifySignatures tag env.sigList

/-! ## Apply -/

/-- Source function `applyTag`: on an error the process state is untouched; on success the tag
is marked applied and one history entry is added. -/
def applyTag (env : ApplyEnv) (tag : Tag) (a : Agent) : Except ApplyError Agent :=
  if !env.fileStore then .error .creatingFileStore
  else if !env.newRepository then .error .creatingRepository
  else if !env.copy then .error .copyingTag
  else if !env.applyFiles then .error .applyingFiles
  else
    .ok { a with
      repoState := a.repoState.MarkApplied tag
      history := a.history.AddEntry env.now "Apply Tag" ("Applied tag " ++ tag.Name) }

/-- How `processTag` ends: it returns nil, it returns an error, or the process
ends in `os.Exit(1)`.  Each case carries the process state at that point. -/
inductive ProcessResult where
  | ok (a : Agent)
  | failed (err : VerifyError) (a : Agent)
  | exit (err : ApplyError) (a : Agent)

/-- Source function `processTag`, for the `j`-th fetched tag. -/
def processTag (w : World) (j : Nat) (tag : Tag) (a : Agent) : ProcessResult :=
  let a1 := { a with ready := false }
  match verifyTag (w.verify j tag) a1.rules tag with
  | some err => .failed err a1
  | none =>
    match applyTag (w.apply j tag) tag a1 with
    | .error err => .exit err a1
    | .ok a2 => .ok { a2 with ready := true }

/-! ## Reconciler -/

/-- The state of the loop of `checkRepository` over `tags` when it stops: the
process state, the tags `processTag` was called on, in call order, and whether
the process ended inside one of those calls. -/
structure LoopResult where
  agent : Agent
  handed : List Tag
  exited : Bool

/-- The loop of `checkRepository` over `tags`, from index `j` on.  The inner loop
that looks for the tag's name in `repoState.Tags` is `List.findIdx?`. -/
def processTags (w : World) : Nat → List Tag → Agent → LoopResult
  | _, [], a => { agent := a, handed := [], exited := false }
  | j, tag :: rest, a =>
    match a.repoState.Tags.findIdx? (fun t => t.Name == tag.Name) with
    | some _ => processTags w (j + 1) rest a
    | none =>
      match processTag w j tag a with
      | .exit _ a1 => { agent := a1, handed := [tag], exited := true }
      | .failed _ a1 =>
        let out := processTags w (j + 1) rest a1
        { out with handed := tag :: out.handed }
      | .ok a1 =>
        let out := processTags w (j + 1) rest a1
        { out with handed := tag :: out.handed }

/-- How a call of `checkRepository` ends: it never leaves the loop that waits
for `ready`, it returns (with its error, the process state and the tags handed
to `processTag`), or the process ends inside `processTag`. -/
inductive TickResult where
  | waiting
  | returned (err : Option CheckError) (a : Agent) (handed : List Tag)
  | exited (a : Agent) (handed : List Tag)

/-- Source function `Rules.checkRepository`, called on the process-wide `rules`.  Nothing else
writes `ready` while it runs, so a call that finds `ready` false waits for
ever. -/
def checkRepository (compile : String → Option Regexp) (w : World) (a : Agent) : TickResult :=
  if !a.ready then .waiting
  else
    let parts := FindStringSubmatch a.rules.RepositoryURL
    if parts.length != 3 then
      .returned (some (.invalidRepositoryURL a.rules.RepositoryURL)) a []
    else
      let registry := parts.getD 1 ""
      let repository := parts.getD 2 ""
      match fetchTags compile w registry repository a with
      | (a1, .error e) => .returned (some (.fetchingTags e)) a1 []
      | (a1, .ok none) => .returned none a1 []
      | (a1, .ok (some tags)) =>
        let out := processTags w 0 tags a1
        if out.exited then .exited out.agent out.handed
        else
          .returned none
            { out.agent with
              repoState := { out.agent.repoState with Tags := tags, LastUpdated := w.now } }
            out.handed

/-- The tags a call of `checkRepository` hands to `processTag`, in call order. -/
def TickResult.handed : TickResult → List Tag
  | .waiting => []
  | .returned _ _ handed => handed
  | .exited _ handed => handed

/-- The process state once `main` has set `ready`: the rules as read from the
rules file (no matcher compiled yet), an empty repository state, and a history
holding the `Startup` entry that `init` adds at time `t0`. -/
def initAgent (rules_file repositoryURL only : String) (t0 : Nat) : Agent :=
  { rules := { RepositoryURL := repositoryURL, Only := only, matcher := none }
    ready := true
    repoState := NewOCIRepositoryInfo
    history := TaskHistory.empty.AddEntry t0 "Startup"
      ("Agent initialized with rules file: " ++ rules_file) }

/-- The process state after the watcher has run one tick per world of `ws`, in
order.  A tick that waits for ever or ends the process is the last one. -/
def runTicks (compile : String → Option Regexp) : List World → Agent → Agent
  | [], a => a
  | w :: ws, a =>
    match checkRepository compile w a with
    | .waiting => a
    | .returned _ a1 _ => runTicks compile ws a1
    | .exited a1 _ => a1


/-! ## Notions the statements use -/

/-- What `Rules.Matches` answers for the receiver `r`, as a function of the
tag name alone: the cached matcher when there is one, otherwise the matcher
`regexp.Compile` gives for `Only`, and `false` when `Only` does not compile. -/
def Rules.matchFn (compile : String → Option Regexp) (r : Rules) : String → Bool :=
  match r.matcher with
  | some m => m
  | none =>
    match compile r.Only with
    | some m => m
    | none => fun _ => false

/-- What the ring holds after the entries `es` were added to the empty history. -/
structure RingInv (h : TaskHistory) (es : List HistoryEntry) : Prop where
  len : h.entries.length = 100
  pos : h.pos = es.length % 100
  count : h.count = min es.length 100
  live : ∀ k, k < es.length → es.length ≤ k + 100 → h.entries[k % 100]? = es[k]?
  blank : ∀ j, es.length ≤ j → j < 100 → h.entries[j]? = some HistoryEntry.zero

/-- The test of the loop of `checkRepository`: no tag of `repoState.Tags` has the
name of `tag` (the inner loop leaves `tag_index` at -1). -/
def notKnown (a : Agent) (tag : Tag) : Bool :=
  (a.repoState.Tags.findIdx? (fun t => t.Name == tag.Name)).isNone

/-- The three tests `fetchTags` makes on a tag name before it fetches the
manifest: the name does not end in `.sig`, `Matches` accepts it, and
`repoState.Applied[name]` is the empty string. -/
def candidate (compile : String → Option Regexp) (r : Rules) (applied : List (String × String))
    (name : String) : Bool :=
  !HasSuffix name ".sig" && r.matchFn compile name && mapIndex applied name == ""

/-- The process state a call of `checkRepository` started in state `a` leaves
behind: `a` itself when the call waits for ever. -/
def TickResult.agent (a : Agent) : TickResult → Agent
  | .waiting => a
  | .returned _ a1 _ => a1
  | .exited a1 _ => a1

/-- The registry part of the repository URL, `parts[1]`. -/
def registryOf (a : Agent) : String := (FindStringSubmatch a.rules.RepositoryURL).getD 1 ""

/-- The repository part of the repository URL, `parts[2]`. -/
def repositoryOf (a : Agent) : String := (FindStringSubmatch a.rules.RepositoryURL).getD 2 ""

/-- The URL of the tag-list request of `fetchTags`. -/
def tagsListURL (a : Agent) : String :=
  "http://" ++ registryOf a ++ "/v2/" ++ repositoryOf a ++ "/tags/list"

/-- The matcher state and the tags `fetchTags` builds from the tag list `names`
in state `a`. -/
def fetched (compile : String → Option Regexp) (w : World) (a : Agent) (names : List String) :
    Rules × List Tag :=
  fetchTagsLoop compile w (registryOf a) (repositoryOf a) a.repoState.Applied 0 names a.rules

/-- The loop of `checkRepository` run on the tags fetched from `names`. -/
def looped (compile : String → Option Regexp) (w : World) (a : Agent) (names : List String) :
    LoopResult :=
  processTags w 0 (fetched compile w a names).2 { a with rules := (fetched compile w a names).1 }

/-- The answers `Rules.Matches` gives to a sequence of calls, one per tag name
of the list, each call made on the receiver as the call before left it. -/
def Rules.matchesSeq (compile : String → Option Regexp) : Rules → List String → List Bool
  | _, [] => []
  | r, t :: ts => (r.Matches compile t).1 :: Rules.matchesSeq compile (r.Matches compile t).2 ts

/-- The form `host/path` of a repository URL: the host is not empty and holds no
`/`, the path is not empty. -/
def HostSlashPath (url host path : String) : Prop :=
  url = host ++ "/" ++ path ∧ host ≠ "" ∧ '/' ∉ host.data ∧ path ≠ ""

/-- The candidates of a tick, by name: the name does not end in `.sig`,
`Rules.Matches` accepts it, `repoState.Applied` holds no digest for it, and no
tag of `repoState.Tags` has it. -/
def isCandidate (compile : String → Option Regexp) (a : Agent) (name : String) : Bool :=
  !HasSuffix name ".sig" && (a.rules.Matches compile name).1 &&
    decide (mapIndex a.repoState.Applied name = "") &&
    decide (name ∉ a.repoState.Tags.map Tag.Name)

/-! ## Manifests -/

/-- A YAML value as the decoder stores it in a `map[string]interface{}`. -/
inductive YamlValue where
  | scalar (s : String)
  | mapping (fields : List (String × YamlValue))
  | sequence (items : List YamlValue)

/-- The `unstructured.Unstructured` struct; `Object = none` is the nil map. -/
structure Unstructured where
  Object : Option (List (String × YamlValue))

/-- Go `m[k]` on a `map[string]interface{}` kept as an association list. -/
def fieldOf : List (String × YamlValue) → String → Option YamlValue
  | [], _ => none
  | (k, v) :: m, x => if k = x then some v else fieldOf m x

/-- The string found by following the keys of `path` through nested maps, and
`""` when a key is missing or the value found has another shape; this is how
the getters of `Unstructured` read a field. -/
def nestedString : List (String × YamlValue) → List String → String
  | _, [] => ""
  | m, [k] =>
    match fieldOf m k with
    | some (.scalar s) => s
    | _ => ""
  | m, k :: k' :: ks =>
    match fieldOf m k with
    | some (.mapping fs) => nestedString fs (k' :: ks)
    | _ => ""

/-- The getter `GetAPIVersion`: the field `apiVersion`. -/
def Unstructured.GetAPIVersion (u : Unstructured) : String :=
  match u.Object with
  | none => ""
  | some m => nestedString m ["apiVersion"]

/-- The getter `GetKind`: the field `kind`. -/
def Unstructured.GetKind (u : Unstructured) : String :=
  match u.Object with
  | none => ""
  | some m => nestedString m ["kind"]

/-- The getter `GetName`: the field `metadata.name`. -/
def Unstructured.GetName (u : Unstructured) : String :=
  match u.Object with
  | none => ""
  | some m => nestedString m ["metadata", "name"]

/-- The getter `GetNamespace`: the field `metadata.namespace`. -/
def Unstructured.GetNamespace (u : Unstructured) : String :=
  match u.Object with
  | none => ""
  | some m => nestedString m ["metadata", "namespace"]

/-- What one call of `dec.Decode(obj.Object)` gives before the end of the
stream: an error, or nil with the keys of the document stored in the map that
was passed in.  An empty document stores no key. -/
inductive DecodeOutcome where
  | failed
  | stored (fields : List (String × YamlValue))

/-- The caller's map after `dec.Decode` has stored `fields` in it.  The map is
passed by value: the callee writes keys into it and cannot make the caller's
variable nil. -/
def storeInto (fields : List (String × YamlValue)) :
    Option (List (String × YamlValue)) → Option (List (String × YamlValue))
  | none => none
  | some m => some (m ++ fields)

/-- One server-side apply request: the resource of the REST mapping, the
namespace, the object's name, the object and the field manager of the apply
options. -/
structure ApplyRequest where
  Resource : String
  Namespace : String
  Name : String
  obj : Unstructured
  fieldManager : String

/-- The `KubeClient` struct, by what its two members answer: `discoveryMapper`
gives the resource that `RESTMapping` finds for the group, version and kind
read from an object's `apiVersion` and `kind` (`none` is an error), and `client`
tells whether the apply request made in the `i`-th pass of the loop returns
nil. -/
structure KubeClient where
  discoveryMapper : String → String → Option String
  client : Nat → ApplyRequest → Bool

/-- The errors of `KubeClient.Apply`. -/
inductive KubeError where
  | decode
  | restMapping
  | apply
deriving DecidableEq, Repr

/-- Source function `KubeClient.Apply`, from the `i`-th pass of its loop on: the
decoder has the outcomes of the list left to give and then `io.EOF`.  The
result is the error returned (`none` is nil) and the apply requests submitted,
in order. -/
def KubeClient.Apply (k : KubeClient) : Nat → List DecodeOutcome →
    Option KubeError × List ApplyRequest
  | _, [] => (none, [])
  | _, .failed :: _ => (some .decode, [])
  | i, .stored fields :: rest =>
    let obj : Unstructured := { Object := storeInto fields (some []) }
    match obj.Object with
    | none => KubeClient.Apply k (i + 1) rest
    | some _ =>
      match k.discoveryMapper obj.GetAPIVersion obj.GetKind with
      | none => (some .restMapping, [])
      | some gvr =>
        let ns := if obj.GetNamespace.length == 0 then "default" else obj.GetNamespace
        let request : ApplyRequest :=
          { Resource := gvr, Namespace := ns, Name := obj.GetName, obj := obj,
            fieldManager := "kube-apply" }
        if !k.client i request then (some .apply, [request])
        else
          let out := KubeClient.Apply k (i + 1) rest
          (out.1, request :: out.2)

/-- The apply request `KubeClient.Apply` makes for a decoded document with the
given fields, once the REST mapping has given the resource `gvr`. -/
def requestFor (gvr : String) (fields : List (String × YamlValue)) : ApplyRequest :=
  { Resource := gvr
    Namespace :=
      if (nestedString fields ["metadata", "namespace"]).length == 0 then "default"
      else nestedString fields ["metadata", "namespace"]
    Name := nestedString fields ["metadata", "name"]
    obj := { Object := some fields }
    fieldManager := "kube-apply" }

/-- Whether every step of one `applyTag` call succeeds, so that `applyTag`
returns nil. -/
def ApplyEnv.succeeds (env : ApplyEnv) : Bool :=
  env.fileStore && env.newRepository && env.copy && env.applyFiles

/-! ## Concrete inputs -/

/-- A stand-in for `regexp.Compile` on concrete inputs: it compiles the
pattern `^v[0-9]+$` of the rules file to its matcher and rejects every other
pattern, as `regexp.Compile` rejects `[unclosed`. -/
def demoCompile : String → Option Regexp := fun only =>
  if only = "^v[0-9]+$" then
    some (fun t =>
      match t.data with
      | 'v' :: ds => !ds.isEmpty && ds.all Char.isDigit
      | _ => false)
  else none

/-- A signature whose payload names `digest` and for which the cryptographic
check answers `verifies`. -/
def demoSignature (digest : String) (verifies : Bool) : Signature :=
  { base64Signature := some "MEUCIQ=="
    payload := some "payload"
    decodes := true
    signedDigest := some digest
    verifies := verifies }

/-- A `verifyTag` environment in which the reference parses, the key loads and
the signature list `sigs` is fetched. -/
def demoVerifyEnv (sigs : List Signature) : VerifyEnv :=
  { parseReference := fun _ => true
    readKeyFile := true
    decodeKey := true
    parseKey := true
    keyIsECDSA := true
    loadVerifier := true
    signedEntity := true
    signatures := true
    sigsGet := true
    sigList := sigs }

/-- A world in which the registry lists `names`, every manifest request is
answered with status 200 and digest `digest`, every tag carries the signature
list `sigs`, and every apply succeeds. -/
def demoWorld (names : List String) (digest : String) (sigs : List Signature) : World :=
  { tagsList := fun _ => .response 200 (some names)
    manifest := fun _ _ => .response 200 digest (some [])
    verify := fun _ _ => demoVerifyEnv sigs
    apply := fun _ _ =>
      { fileStore := true, newRepository := true, copy := true, applyFiles := true, now := 5 }
    now := 7 }

/-- The initial state for the rule `^v[0-9]+$` on `registry:5000/demo`. -/
def demoAgent : Agent := initAgent "/etc/agent/rules.yaml" "registry:5000/demo" "^v[0-9]+$" 1

/-- The fields of a ConfigMap manifest with the given name and no namespace. -/
def demoConfigMap (name : String) : List (String × YamlValue) :=
  [("apiVersion", .scalar "v1"), ("kind", .scalar "ConfigMap"),
    ("metadata", .mapping [("name", .scalar name)])]

/-- A cluster whose discovery knows the kind `ConfigMap` of `v1` only and which
accepts every apply request. -/
def demoKube : KubeClient :=
  { discoveryMapper := fun apiVersion kind =>
      if apiVersion = "v1" ∧ kind = "ConfigMap" then some "configmaps" else none
    client := fun _ _ => true }

/-- The world of `demoWorld` in which the copy of every tag from the registry
fails, so that every `applyTag` call returns an error. -/
def demoWorldCopyFails (names : List String) (digest : String) (sigs : List Signature) :
    World :=
  { demoWorld names digest sigs with
    apply := fun _ _ =>
      { fileStore := true, newRepository := true, copy := false, applyFiles := true, now := 5 } }

/-! # Theorems -/

/-! ## Maps -/

theorem mem_mapAssign {m : List (String × String)} {k v : String} {p : String × String}
    (h : p ∈ mapAssign m k v) : p ∈ m ∨ p = (k, v) := by
  induction m with
  | nil => simpa [mapAssign] using h
  | cons q m ih =>
    obtain ⟨k', v'⟩ := q
    unfold mapAssign at h
    split at h
    · rcases List.mem_cons.mp h with h | h
      · exact Or.inr h
      · exact Or.inl (List.mem_cons_of_mem _ h)
    · rcases List.mem_cons.mp h with h | h
      · exact Or.inl (h ▸ List.mem_cons_self _ _)
      · rcases ih h with h | h
        · exact Or.inl (List.mem_cons_of_mem _ h)
        · exact Or.inr h

theorem mapIndex_mapAssign (m : List (String × String)) (k v x : String) :
    mapIndex (mapAssign m k v) x = if k = x then v else mapIndex m x := by
  induction m with
  | nil => simp [mapAssign, mapIndex]
  | cons q m ih =>
    obtain ⟨k', v'⟩ := q
    unfold mapAssign
    by_cases hk : k' = k
    · subst hk
      by_cases hx : k' = x <;> simp [mapIndex, hx]
    · by_cases hx : k' = x
      · subst hx
        have : ¬ k = k' := fun h => hk h.symm
        simp [mapIndex, hk, this]
      · simp [mapIndex, hk, hx, ih]

theorem mapIndex_eq_empty_of_not_key {m : List (String × String)} {x : String}
    (h : x ∉ mapKeys m) : mapIndex m x = "" := by
  induction m with
  | nil => rfl
  | cons q m ih =>
    obtain ⟨k, v⟩ := q
    simp only [mapKeys, List.map_cons, List.mem_cons, not_or] at h
    have hk : ¬ k = x := fun e => h.1 e.symm
    simp only [mapIndex, hk, if_false]
    exact ih h.2

theorem mapIndex_mem {m : List (String × String)} {x : String} (h : mapIndex m x ≠ "") :
    (x, mapIndex m x) ∈ m := by
  induction m with
  | nil => simp [mapIndex] at h
  | cons q m ih =>
    obtain ⟨k, v⟩ := q
    by_cases hk : k = x
    · subst hk
      simp [mapIndex]
    · simp only [mapIndex, hk, if_false] at h ⊢
      exact List.mem_cons_of_mem _ (ih h)

theorem mapIndex_ne_empty_of_key {m : List (String × String)} (hne : ∀ p ∈ m, p.2 ≠ "")
    {x : String} (h : x ∈ mapKeys m) : mapIndex m x ≠ "" := by
  induction m with
  | nil => simp [mapKeys] at h
  | cons q m ih =>
    obtain ⟨k, v⟩ := q
    by_cases hk : k = x
    · simp only [mapIndex, hk, if_true]
      exact hne (k, v) (List.mem_cons_self _ _)
    · simp only [mapIndex, hk, if_false]
      simp only [mapKeys, List.map_cons, List.mem_cons] at h
      rcases h with h | h
      · exact absurd h.symm hk
      · exact ih (fun p hp => hne p (List.mem_cons_of_mem _ hp)) h

theorem mapIndex_eq_empty_iff {m : List (String × String)} (hne : ∀ p ∈ m, p.2 ≠ "")
    (x : String) : mapIndex m x = "" ↔ x ∉ mapKeys m :=
  ⟨fun h hmem => mapIndex_ne_empty_of_key hne hmem h, mapIndex_eq_empty_of_not_key⟩

/-! ## Rules -/

theorem Matches_fst (compile : String → Option Regexp) (r : Rules) (t : String) :
    (r.Matches compile t).1 = r.matchFn compile t := by
  unfold Rules.Matches Rules.matchFn
  cases r.matcher with
  | none => cases compile r.Only <;> rfl
  | some m => rfl

theorem Matches_snd_matchFn (compile : String → Option Regexp) (r : Rules) (t : String) :
    (r.Matches compile t).2.matchFn compile = r.matchFn compile := by
  unfold Rules.Matches Rules.matchFn
  cases hm : r.matcher with
  | none =>
    cases hc : compile r.Only with
    | none => simp [hc]
    | some m => simp
  | some m => simp [hm]

theorem Matches_snd_url (compile : String → Option Regexp) (r : Rules) (t : String) :
    (r.Matches compile t).2.RepositoryURL = r.RepositoryURL ∧
    (r.Matches compile t).2.Only = r.Only := by
  unfold Rules.Matches
  cases r.matcher with
  | none => cases compile r.Only <;> exact ⟨rfl, rfl⟩
  | some m => exact ⟨rfl, rfl⟩

theorem verifyTag_congr (env : VerifyEnv) (r r' : Rules) (tag : Tag)
    (h : r.RepositoryURL = r'.RepositoryURL) : verifyTag env r tag = verifyTag env r' tag := by
  unfold verifyTag
  rw [h]

/-! ## One tag -/

theorem applyTag_ok {env : ApplyEnv} {tag : Tag} {a a2 : Agent} (h : applyTag env tag a = .ok a2) :
    a2 = { a with
      repoState := a.repoState.MarkApplied tag
      history := a.history.AddEntry env.now "Apply Tag" ("Applied tag " ++ tag.Name) } := by
  unfold applyTag at h
  split at h
  · cases h
  · split at h
    · cases h
    · split at h
      · cases h
      · split at h
        · cases h
        · cases h; rfl

theorem processTag_cases (w : World) (j : Nat) (tag : Tag) (a : Agent) :
    (∃ err, verifyTag (w.verify j tag) a.rules tag = some err ∧
      processTag w j tag a = .failed err { a with ready := false }) ∨
    (verifyTag (w.verify j tag) a.rules tag = none ∧ ∃ err,
      applyTag (w.apply j tag) tag { a with ready := false } = .error err ∧
      processTag w j tag a = .exit err { a with ready := false }) ∨
    (verifyTag (w.verify j tag) a.rules tag = none ∧
      applyTag (w.apply j tag) tag { a with ready := false } = .ok
        { a with
          ready := false
          repoState := a.repoState.MarkApplied tag
          history := a.history.AddEntry (w.apply j tag).now "Apply Tag"
            ("Applied tag " ++ tag.Name) } ∧
      processTag w j tag a = .ok
        { a with
          ready := true
          repoState := a.repoState.MarkApplied tag
          history := a.history.AddEntry (w.apply j tag).now "Apply Tag"
            ("Applied tag " ++ tag.Name) }) := by
  unfold processTag
  cases hv : verifyTag (w.verify j tag) a.rules tag with
  | some err => exact Or.inl ⟨err, rfl, by simp [hv]⟩
  | none =>
    cases ha : applyTag (w.apply j tag) tag { a with ready := false } with
    | error err => exact Or.inr (Or.inl ⟨rfl, err, rfl, by simp [hv, ha]⟩)
    | ok a2 =>
      have h2 := applyTag_ok ha
      subst h2
      exact Or.inr (Or.inr ⟨rfl, rfl, by simp [hv, ha]⟩)


/-! ## The loop over the fetched tags -/

theorem processTags_known {w : World} {j : Nat} {tag : Tag} {rest : List Tag} {a : Agent}
    (h : notKnown a tag = false) :
    processTags w j (tag :: rest) a = processTags w (j + 1) rest a := by
  unfold notKnown at h
  rw [processTags]
  cases hf : List.findIdx? (fun t => t.Name == tag.Name) a.repoState.Tags with
  | none => simp [hf] at h
  | some i => rfl

theorem processTags_new {w : World} {j : Nat} {tag : Tag} {rest : List Tag} {a : Agent}
    (h : notKnown a tag = true) :
    processTags w j (tag :: rest) a =
      match processTag w j tag a with
      | .exit _ a1 => { agent := a1, handed := [tag], exited := true }
      | .failed _ a1 =>
        { processTags w (j + 1) rest a1 with
          handed := tag :: (processTags w (j + 1) rest a1).handed }
      | .ok a1 =>
        { processTags w (j + 1) rest a1 with
          handed := tag :: (processTags w (j + 1) rest a1).handed } := by
  unfold notKnown at h
  rw [processTags]
  cases hf : List.findIdx? (fun t => t.Name == tag.Name) a.repoState.Tags with
  | none => rfl
  | some i => simp [hf] at h

/-- The loop writes neither `rules` nor `repoState.Tags` nor `LastUpdated`. -/
theorem processTags_frame (w : World) (tags : List Tag) :
    ∀ (j : Nat) (a : Agent),
      (processTags w j tags a).agent.rules = a.rules ∧
      (processTags w j tags a).agent.repoState.Tags = a.repoState.Tags ∧
      (processTags w j tags a).agent.repoState.LastUpdated = a.repoState.LastUpdated := by
  induction tags with
  | nil => intro j a; exact ⟨rfl, rfl, rfl⟩
  | cons tag rest ih =>
    intro j a
    cases hk : notKnown a tag with
    | false => rw [processTags_known hk]; exact ih (j + 1) a
    | true =>
      rw [processTags_new hk]
      rcases processTag_cases w j tag a with ⟨err, _, hp⟩ | ⟨_, err, _, hp⟩ | ⟨_, _, hp⟩
      · rw [hp]; exact ih (j + 1) _
      · rw [hp]; exact ⟨rfl, rfl, rfl⟩
      · rw [hp]; exact ih (j + 1) _

theorem notKnown_congr {a1 a : Agent} (h : a1.repoState.Tags = a.repoState.Tags) :
    notKnown a1 = notKnown a := by
  funext t
  simp [notKnown, h]

/-- The tags handed to `processTag` are the fetched tags whose name is not in
`repoState.Tags`, in order; all of them when the process does not end in the
loop, and those up to the tag whose apply failed when it does. -/
theorem processTags_handed (w : World) (tags : List Tag) :
    ∀ (j : Nat) (a : Agent),
      (processTags w j tags a).handed <+: tags.filter (notKnown a) ∧
      ((processTags w j tags a).exited = false →
        (processTags w j tags a).handed = tags.filter (notKnown a)) := by
  induction tags with
  | nil => intro j a; exact ⟨List.prefix_refl _, fun _ => rfl⟩
  | cons tag rest ih =>
    intro j a
    cases hk : notKnown a tag with
    | false =>
      rw [processTags_known hk, List.filter_cons_of_neg (by simp [hk])]
      exact ih (j + 1) a
    | true =>
      rw [processTags_new hk, List.filter_cons_of_pos hk]
      rcases processTag_cases w j tag a with ⟨err, _, hp⟩ | ⟨_, err, _, hp⟩ | ⟨_, _, hp⟩
      · obtain ⟨a1, hp, hT⟩ : ∃ a1 : Agent, processTag w j tag a = .failed err a1 ∧
            a1.repoState.Tags = a.repoState.Tags := ⟨_, hp, rfl⟩
        rw [hp]
        have := ih (j + 1) a1
        rw [notKnown_congr hT] at this
        exact ⟨(List.prefix_cons_inj tag).mpr this.1, fun h => by
          simpa using this.2 h⟩
      · rw [hp]
        refine ⟨?_, fun h => by simp at h⟩
        exact (List.prefix_cons_inj tag).mpr (List.nil_prefix)
      · obtain ⟨a1, hp, hT⟩ : ∃ a1 : Agent, processTag w j tag a = .ok a1 ∧
            a1.repoState.Tags = a.repoState.Tags := ⟨_, hp, rfl⟩
        rw [hp]
        have := ih (j + 1) a1
        rw [notKnown_congr hT] at this
        exact ⟨(List.prefix_cons_inj tag).mpr this.1, fun h => by
          simpa using this.2 h⟩

/-- A loop that hands no tag to `processTag` leaves the process state as it
was. -/
theorem processTags_handed_nil (w : World) (tags : List Tag) :
    ∀ (j : Nat) (a : Agent), (processTags w j tags a).handed = [] →
      (processTags w j tags a).agent = a ∧ (processTags w j tags a).exited = false := by
  induction tags with
  | nil => intro j a _; exact ⟨rfl, rfl⟩
  | cons tag rest ih =>
    intro j a
    cases hk : notKnown a tag with
    | false => rw [processTags_known hk]; exact ih (j + 1) a
    | true =>
      rw [processTags_new hk]
      rcases processTag_cases w j tag a with ⟨err, _, hp⟩ | ⟨_, err, _, hp⟩ | ⟨_, _, hp⟩ <;>
        rw [hp] <;> intro h <;> simp at h

/-- Every pair of `Applied` after the loop was there before it, or is the name
and digest of a fetched tag that `verifyTag` accepted and `applyTag` applied
in this loop. -/
theorem processTags_applied (w : World) (tags : List Tag) :
    ∀ (j : Nat) (a : Agent) (p : String × String),
      p ∈ (processTags w j tags a).agent.repoState.Applied →
      p ∈ a.repoState.Applied ∨
      ∃ i tag, tags[i]? = some tag ∧ p = (tag.Name, tag.Digest) ∧
        verifyTag (w.verify (j + i) tag) a.rules tag = none ∧
        (∃ a1 a2, applyTag (w.apply (j + i) tag) tag a1 = .ok a2) := by
  induction tags with
  | nil => intro j a p h; exact Or.inl h
  | cons tag rest ih =>
    intro j a p
    have lift : ∀ a1 : Agent, a1.rules = a.rules →
        (∃ i tag', rest[i]? = some tag' ∧ p = (tag'.Name, tag'.Digest) ∧
          verifyTag (w.verify (j + 1 + i) tag') a1.rules tag' = none ∧
          (∃ b1 b2, applyTag (w.apply (j + 1 + i) tag') tag' b1 = .ok b2)) →
        ∃ i tag', (tag :: rest)[i]? = some tag' ∧ p = (tag'.Name, tag'.Digest) ∧
          verifyTag (w.verify (j + i) tag') a.rules tag' = none ∧
          (∃ b1 b2, applyTag (w.apply (j + i) tag') tag' b1 = .ok b2) := by
      rintro a1 hr ⟨i, tag', hi, hp, hv, ha⟩
      refine ⟨i + 1, tag', by simpa using hi, hp, ?_, ?_⟩
      · rw [← hr, show j + (i + 1) = j + 1 + i by omega]; exact hv
      · rw [show j + (i + 1) = j + 1 + i by omega]; exact ha
    cases hk : notKnown a tag with
    | false =>
      rw [processTags_known hk]
      intro h
      rcases ih (j + 1) a p h with h | h
      · exact Or.inl h
      · exact Or.inr (lift a rfl h)
    | true =>
      rw [processTags_new hk]
      rcases processTag_cases w j tag a with ⟨err, _, hp⟩ | ⟨_, err, _, hp⟩ | ⟨hv, ha, hp⟩
      · rw [hp]
        intro h
        rcases ih (j + 1) _ p h with h | h
        · exact Or.inl h
        · exact Or.inr (lift _ rfl h)
      · rw [hp]
        intro h
        exact Or.inl h
      · rw [hp]
        intro h
        rcases ih (j + 1) _ p h with h | h
        · rcases mem_mapAssign h with h | h
          · exact Or.inl h
          · exact Or.inr ⟨0, tag, by simp, h, hv, _, _, ha⟩
        · exact Or.inr (lift _ rfl h)


/-! ## The loop over the registry's tag list -/

theorem fetchTagMetadata_name {w : World} {i : Nat} {registry repository tagName : String}
    {tag : Tag} (h : fetchTagMetadata w i registry repository tagName = .ok tag) :
    tag.Name = tagName := by
  unfold fetchTagMetadata at h
  simp only [] at h
  split at h
  · cases h
  · cases h
  · split at h
    · cases h
    · split at h
      · cases h
      · cases h; rfl

theorem fetchTagsLoop_rules (compile : String → Option Regexp) (w : World)
    (registry repository : String) (applied : List (String × String)) (names : List String) :
    ∀ (i : Nat) (r : Rules),
      (fetchTagsLoop compile w registry repository applied i names r).1.matchFn compile
        = r.matchFn compile ∧
      (fetchTagsLoop compile w registry repository applied i names r).1.RepositoryURL
        = r.RepositoryURL ∧
      (fetchTagsLoop compile w registry repository applied i names r).1.Only = r.Only := by
  induction names with
  | nil => intro i r; exact ⟨rfl, rfl, rfl⟩
  | cons n rest ih =>
    intro i r
    have hm := Matches_snd_matchFn compile r n
    have hu := Matches_snd_url compile r n
    have step := ih (i + 1) (r.Matches compile n).2
    rw [hm, hu.1, hu.2] at step
    unfold fetchTagsLoop
    split
    · exact ih (i + 1) r
    · simp only []
      split
      · exact step
      · split
        · exact step
        · split
          · exact step
          · exact step

theorem fetchTagsLoop_congr (compile : String → Option Regexp) (w : World)
    (registry repository : String) (applied : List (String × String)) (names : List String) :
    ∀ (i : Nat) (r r' : Rules), r.matchFn compile = r'.matchFn compile →
      (fetchTagsLoop compile w registry repository applied i names r).2 =
        (fetchTagsLoop compile w registry repository applied i names r').2 := by
  induction names with
  | nil => intro i r r' _; rfl
  | cons n rest ih =>
    intro i r r' h
    have h1 : (r.Matches compile n).1 = (r'.Matches compile n).1 := by
      rw [Matches_fst, Matches_fst, h]
    have h2 := ih (i + 1) (r.Matches compile n).2 (r'.Matches compile n).2
      (by rw [Matches_snd_matchFn, Matches_snd_matchFn, h])
    rw [fetchTagsLoop, fetchTagsLoop]
    split
    · exact ih (i + 1) r r' h
    · simp only [h1]
      split
      · exact h2
      · split
        · exact h2
        · split
          · exact h2
          · simp only [h2]

/-- One pass of the loop of `fetchTags`, with the receiver of `Matches` taken
as unchanged. -/
theorem fetchTagsLoop_cons (compile : String → Option Regexp) (w : World)
    (registry repository : String) (applied : List (String × String)) (i : Nat) (n : String)
    (rest : List String) (r : Rules) :
    (fetchTagsLoop compile w registry repository applied i (n :: rest) r).2 =
      if candidate compile r applied n then
        match fetchTagMetadata w i registry repository n with
        | .error _ => (fetchTagsLoop compile w registry repository applied (i + 1) rest r).2
        | .ok tag => tag :: (fetchTagsLoop compile w registry repository applied (i + 1) rest r).2
      else (fetchTagsLoop compile w registry repository applied (i + 1) rest r).2 := by
  have hc := fetchTagsLoop_congr compile w registry repository applied rest (i + 1)
    (r.Matches compile n).2 r (Matches_snd_matchFn compile r n)
  rw [fetchTagsLoop]
  unfold candidate
  rw [← Matches_fst]
  cases hs : HasSuffix n ".sig" with
  | true => simp
  | false =>
    cases hm : (r.Matches compile n).1 with
    | false => simp [hm, hc]
    | true =>
      by_cases ha : mapIndex applied n = ""
      · simp only [Bool.false_eq_true, if_false, hm, Bool.not_true, ha, bne_self_eq_false,
          Bool.not_false, Bool.and_self, beq_self_eq_true, if_true]
        cases fetchTagMetadata w i registry repository n with
        | error e => simp [hc]
        | ok tag => simp [hc]
      · simp [hm, ha, hc]

/-- The tags `fetchTags` returns are exactly the manifests fetched for the names
of the tag list that pass the three tests. -/
theorem mem_fetchTagsLoop (compile : String → Option Regexp) (w : World)
    (registry repository : String) (applied : List (String × String)) (names : List String)
    (tag : Tag) :
    ∀ (i : Nat) (r : Rules),
      tag ∈ (fetchTagsLoop compile w registry repository applied i names r).2 ↔
      ∃ k n, names[k]? = some n ∧ candidate compile r applied n = true ∧
        fetchTagMetadata w (i + k) registry repository n = .ok tag := by
  induction names with
  | nil => intro i r; simp [fetchTagsLoop]
  | cons n rest ih =>
    intro i r
    have shift : (∃ k m, rest[k]? = some m ∧ candidate compile r applied m = true ∧
          fetchTagMetadata w (i + 1 + k) registry repository m = .ok tag) →
        ∃ k m, (n :: rest)[k]? = some m ∧ candidate compile r applied m = true ∧
          fetchTagMetadata w (i + k) registry repository m = .ok tag := by
      rintro ⟨k, m, hk, hc, hf⟩
      exact ⟨k + 1, m, by simpa using hk, hc, by rw [show i + (k + 1) = i + 1 + k by omega]; exact hf⟩
    have unshift : ∀ k m, (n :: rest)[k]? = some m → candidate compile r applied m = true →
        fetchTagMetadata w (i + k) registry repository m = .ok tag → k ≠ 0 →
        ∃ k m, rest[k]? = some m ∧ candidate compile r applied m = true ∧
          fetchTagMetadata w (i + 1 + k) registry repository m = .ok tag := by
      intro k m hk hc hf h0
      obtain ⟨k', rfl⟩ : ∃ k', k = k' + 1 := ⟨k - 1, by omega⟩
      exact ⟨k', m, by simpa using hk, hc, by rw [show i + 1 + k' = i + (k' + 1) by omega]; exact hf⟩
    rw [fetchTagsLoop_cons]
    constructor
    · intro h
      split at h
      · rename_i hc
        cases hf : fetchTagMetadata w i registry repository n with
        | error e =>
          rw [hf] at h
          exact shift ((ih (i + 1) r).mp h)
        | ok t =>
          rw [hf] at h
          rcases List.mem_cons.mp h with h | h
          · subst h
            exact ⟨0, n, by simp, hc, hf⟩
          · exact shift ((ih (i + 1) r).mp h)
      · exact shift ((ih (i + 1) r).mp h)
    · rintro ⟨k, m, hk, hc, hf⟩
      by_cases h0 : k = 0
      · subst h0
        simp only [List.getElem?_cons_zero, Option.some.injEq] at hk
        subst hk
        rw [if_pos hc]
        simp only [Nat.add_zero] at hf
        rw [hf]
        exact List.mem_cons_self _ _
      · have := (ih (i + 1) r).mpr (unshift k m hk hc hf h0)
        split
        · cases fetchTagMetadata w i registry repository n with
          | error e => exact this
          | ok t => exact List.mem_cons_of_mem _ this
        · exact this

/-- When the manifest of every name that passes the three tests is fetched, the
names of the tags `fetchTags` returns are the names that pass, in the order of
the tag list. -/
theorem fetchTagsLoop_names (compile : String → Option Regexp) (w : World)
    (registry repository : String) (applied : List (String × String)) (names : List String) :
    ∀ (i : Nat) (r : Rules),
      (∀ k n, names[k]? = some n → candidate compile r applied n = true →
        ∃ tag, fetchTagMetadata w (i + k) registry repository n = .ok tag) →
      (fetchTagsLoop compile w registry repository applied i names r).2.map Tag.Name =
        names.filter (candidate compile r applied) := by
  induction names with
  | nil => intro i r _; rfl
  | cons n rest ih =>
    intro i r hall
    have hrest := ih (i + 1) r (fun k m hk hc => by
      have := hall (k + 1) m (by simpa using hk) hc
      rwa [show i + (k + 1) = i + 1 + k by omega] at this)
    rw [fetchTagsLoop_cons]
    cases hc : candidate compile r applied n with
    | false => simpa [hc] using hrest
    | true =>
      obtain ⟨tag, hf⟩ := hall 0 n (by simp) hc
      simp only [Nat.add_zero] at hf
      rw [List.filter_cons_of_pos hc]
      simp only [if_true, hf, List.map_cons, fetchTagMetadata_name hf, hrest]


/-! ## One tick -/

theorem checkRepository_ready (compile : String → Option Regexp) (w : World) (a : Agent)
    (hready : a.ready = true)
    (hurl : (FindStringSubmatch a.rules.RepositoryURL).length = 3) :
    checkRepository compile w a =
      match fetchTags compile w (registryOf a) (repositoryOf a) a with
      | (a1, .error e) => .returned (some (.fetchingTags e)) a1 []
      | (a1, .ok none) => .returned none a1 []
      | (a1, .ok (some tags)) =>
        if (processTags w 0 tags a1).exited then
          .exited (processTags w 0 tags a1).agent (processTags w 0 tags a1).handed
        else
          .returned none
            { (processTags w 0 tags a1).agent with
              repoState :=
                { (processTags w 0 tags a1).agent.repoState with
                  Tags := tags, LastUpdated := w.now } }
            (processTags w 0 tags a1).handed := by
  unfold checkRepository
  simp only [hready, Bool.not_true, Bool.false_eq_true, if_false, hurl, bne_self_eq_false]
  rfl

theorem fetchTags_eq (compile : String → Option Regexp) (w : World) (a : Agent) :
    fetchTags compile w (registryOf a) (repositoryOf a) a =
      match w.tagsList (tagsListURL a) with
      | .transportError => (a, .error .checkingRepository)
      | .response statusCode tags =>
        if statusCode == 404 then (a, .ok none)
        else if statusCode != 200 then (a, .error (.unexpectedStatus statusCode))
        else
          match tags with
          | none => (a, .error .parsingJSON)
          | some names =>
            ({ a with rules := (fetched compile w a names).1 },
              .ok (some (fetched compile w a names).2)) :=
  rfl

/-- The call of `checkRepository` when `ready` is true, the URL splits and the
registry answers 200 with a tag list: the loop runs on the fetched tags. -/
theorem checkRepository_listed (compile : String → Option Regexp) (w : World) (a : Agent)
    (names : List String) (hready : a.ready = true)
    (hurl : (FindStringSubmatch a.rules.RepositoryURL).length = 3)
    (hlist : w.tagsList (tagsListURL a) = .response 200 (some names)) :
    checkRepository compile w a =
      if (looped compile w a names).exited then
        .exited (looped compile w a names).agent (looped compile w a names).handed
      else
        .returned none
          { (looped compile w a names).agent with
            repoState :=
              { (looped compile w a names).agent.repoState with
                Tags := (fetched compile w a names).2, LastUpdated := w.now } }
          (looped compile w a names).handed := by
  rw [checkRepository_ready compile w a hready hurl, fetchTags_eq, hlist]
  rfl

/-- The ways a call of `checkRepository` can go: it waits for ever; it returns
before the loop, with the state untouched and no tag handed to `processTag`;
or the registry answers 200 with a tag list and the loop runs. -/
theorem checkRepository_cases (compile : String → Option Regexp) (w : World) (a : Agent) :
    (a.ready = false ∧ checkRepository compile w a = .waiting) ∨
    (a.ready = true ∧ ∃ err, checkRepository compile w a = .returned err a []) ∨
    (a.ready = true ∧ (FindStringSubmatch a.rules.RepositoryURL).length = 3 ∧
      ∃ names, w.tagsList (tagsListURL a) = .response 200 (some names) ∧
        checkRepository compile w a =
          if (looped compile w a names).exited then
            .exited (looped compile w a names).agent (looped compile w a names).handed
          else
            .returned none
              { (looped compile w a names).agent with
                repoState :=
                  { (looped compile w a names).agent.repoState with
                    Tags := (fetched compile w a names).2, LastUpdated := w.now } }
              (looped compile w a names).handed) := by
  cases hr : a.ready with
  | false => exact Or.inl ⟨rfl, by simp [checkRepository, hr]⟩
  | true =>
    by_cases hlen : (FindStringSubmatch a.rules.RepositoryURL).length = 3
    · cases ht : w.tagsList (tagsListURL a) with
      | transportError =>
        refine Or.inr (Or.inl ⟨rfl, some (.fetchingTags .checkingRepository), ?_⟩)
        rw [checkRepository_ready compile w a hr hlen, fetchTags_eq, ht]
      | response statusCode tags =>
        by_cases h404 : statusCode = 404
        · refine Or.inr (Or.inl ⟨rfl, none, ?_⟩)
          rw [checkRepository_ready compile w a hr hlen, fetchTags_eq, ht]
          simp [h404]
        · by_cases h200 : statusCode = 200
          · subst h200
            cases tags with
            | none =>
              refine Or.inr (Or.inl ⟨rfl, some (.fetchingTags .parsingJSON), ?_⟩)
              rw [checkRepository_ready compile w a hr hlen, fetchTags_eq, ht]
              rfl
            | some names =>
              exact Or.inr (Or.inr ⟨rfl, hlen, names, rfl,
                checkRepository_listed compile w a names hr hlen ht⟩)
          · refine Or.inr (Or.inl ⟨rfl, some (.fetchingTags (.unexpectedStatus statusCode)), ?_⟩)
            rw [checkRepository_ready compile w a hr hlen, fetchTags_eq, ht]
            simp [h404, h200]
    · refine Or.inr (Or.inl ⟨rfl, some (.invalidRepositoryURL a.rules.RepositoryURL), ?_⟩)
      simp [checkRepository, hr, hlen]

theorem fetched_rules (compile : String → Option Regexp) (w : World) (a : Agent)
    (names : List String) :
    (fetched compile w a names).1.matchFn compile = a.rules.matchFn compile ∧
    (fetched compile w a names).1.RepositoryURL = a.rules.RepositoryURL ∧
    (fetched compile w a names).1.Only = a.rules.Only :=
  fetchTagsLoop_rules compile w _ _ _ names 0 a.rules

theorem looped_rules (compile : String → Option Regexp) (w : World) (a : Agent)
    (names : List String) :
    (looped compile w a names).agent.rules = (fetched compile w a names).1 :=
  (processTags_frame w _ 0 _).1

/-- A tick leaves the rule as it was, up to the cached matcher. -/
theorem checkRepository_rules (compile : String → Option Regexp) (w : World) (a : Agent) :
    ((checkRepository compile w a).agent a).rules.matchFn compile = a.rules.matchFn compile ∧
    ((checkRepository compile w a).agent a).rules.RepositoryURL = a.rules.RepositoryURL ∧
    ((checkRepository compile w a).agent a).rules.Only = a.rules.Only := by
  rcases checkRepository_cases compile w a with ⟨_, h⟩ | ⟨_, err, h⟩ | ⟨_, _, names, _, h⟩
  · rw [h]; exact ⟨rfl, rfl, rfl⟩
  · rw [h]; exact ⟨rfl, rfl, rfl⟩
  · rw [h]
    have := fetched_rules compile w a names
    have hl := looped_rules compile w a names
    split
    · simp only [TickResult.agent, hl]; exact this
    · simp only [TickResult.agent, hl]; exact this

/-- Every pair of `Applied` after a tick was there before it, or is the name
and digest of a tag that passed the three tests of `fetchTags`, that
`verifyTag` accepted and that `applyTag` applied during the tick. -/
theorem checkRepository_applied (compile : String → Option Regexp) (w : World) (a : Agent)
    (p : String × String)
    (hp : p ∈ ((checkRepository compile w a).agent a).repoState.Applied) :
    p ∈ a.repoState.Applied ∨
    ∃ j tag, p = (tag.Name, tag.Digest) ∧
      candidate compile a.rules a.repoState.Applied tag.Name = true ∧
      verifyTag (w.verify j tag) a.rules tag = none ∧
      (∃ a1 a2, applyTag (w.apply j tag) tag a1 = .ok a2) := by
  rcases checkRepository_cases compile w a with ⟨_, h⟩ | ⟨_, err, h⟩ | ⟨_, _, names, _, h⟩
  · rw [h] at hp; exact Or.inl hp
  · rw [h] at hp; exact Or.inl hp
  · rw [h] at hp
    have hp' : p ∈ (looped compile w a names).agent.repoState.Applied := by
      split at hp
      · exact hp
      · exact hp
    rcases processTags_applied w _ 0 _ p hp' with h | ⟨i, tag, hi, hpe, hv, ha⟩
    · exact Or.inl h
    · obtain ⟨k, n, _, hc, hf⟩ := (mem_fetchTagsLoop compile w _ _ _ names tag 0 a.rules).mp
        (List.getElem?_mem hi)
      refine Or.inr ⟨0 + i, tag, hpe, ?_, ?_, ha⟩
      · rw [fetchTagMetadata_name hf]; exact hc
      · rw [verifyTag_congr _ a.rules (fetched compile w a names).1 tag
          (fetched_rules compile w a names).2.1.symm]
        exact hv

/-- Every tag of `repoState.Tags` after a tick was there before it, or has a
name that passed the three tests of `fetchTags` during the tick. -/
theorem checkRepository_tags (compile : String → Option Regexp) (w : World) (a : Agent)
    (t : Tag) (ht : t ∈ ((checkRepository compile w a).agent a).repoState.Tags) :
    t ∈ a.repoState.Tags ∨ candidate compile a.rules a.repoState.Applied t.Name = true := by
  rcases checkRepository_cases compile w a with ⟨_, h⟩ | ⟨_, err, h⟩ | ⟨_, _, names, _, h⟩
  · rw [h] at ht; exact Or.inl ht
  · rw [h] at ht; exact Or.inl ht
  · rw [h] at ht
    split at ht
    · simp only [TickResult.agent] at ht
      have hf := (processTags_frame w (fetched compile w a names).2 0
        { a with rules := (fetched compile w a names).1 }).2.1
      unfold looped at ht
      rw [hf] at ht
      exact Or.inl ht
    · simp only [TickResult.agent] at ht
      obtain ⟨k, n, _, hc, hf⟩ := (mem_fetchTagsLoop compile w _ _ _ names t 0 a.rules).mp ht
      rw [fetchTagMetadata_name hf]
      exact Or.inr hc

theorem runTicks_cons (compile : String → Option Regexp) (w : World) (ws : List World)
    (a : Agent) :
    runTicks compile (w :: ws) a = (checkRepository compile w a).agent a ∨
    runTicks compile (w :: ws) a = runTicks compile ws ((checkRepository compile w a).agent a) := by
  rw [runTicks]
  cases checkRepository compile w a with
  | waiting => exact Or.inl rfl
  | returned err a1 handed => exact Or.inr rfl
  | exited a1 handed => exact Or.inl rfl

/-- A property of the process state that every tick keeps holds after any
number of ticks. -/
theorem runTicks_induct (compile : String → Option Regexp) (P : Agent → Prop)
    (step : ∀ w a, P a → P ((checkRepository compile w a).agent a)) :
    ∀ (ws : List World) (a : Agent), P a → P (runTicks compile ws a) := by
  intro ws
  induction ws with
  | nil => intro a h; exact h
  | cons w ws ih =>
    intro a h
    rcases runTicks_cons compile w ws a with e | e
    · rw [e]; exact step w a h
    · rw [e]; exact ih _ (step w a h)


/-! ## Safety of the applied set -/

theorem runTicks_rules (compile : String → Option Regexp) (ws : List World) (a : Agent) :
    (runTicks compile ws a).rules.matchFn compile = a.rules.matchFn compile ∧
    (runTicks compile ws a).rules.RepositoryURL = a.rules.RepositoryURL ∧
    (runTicks compile ws a).rules.Only = a.rules.Only := by
  refine runTicks_induct compile
    (fun b => b.rules.matchFn compile = a.rules.matchFn compile ∧
      b.rules.RepositoryURL = a.rules.RepositoryURL ∧ b.rules.Only = a.rules.Only)
    ?_ ws a ⟨rfl, rfl, rfl⟩
  intro w b hb
  have := checkRepository_rules compile w b
  exact ⟨this.1.trans hb.1, this.2.1.trans hb.2.1, this.2.2.trans hb.2.2⟩

/-- Every pair of `Applied` after a run of ticks was there at the start, or is
the name and digest of a tag that `verifyTag` accepted and `applyTag` applied
in one of the ticks. -/
theorem runTicks_applied (compile : String → Option Regexp) :
    ∀ (ws : List World) (a : Agent) (p : String × String),
      p ∈ (runTicks compile ws a).repoState.Applied →
      p ∈ a.repoState.Applied ∨
      ∃ w ∈ ws, ∃ j tag, p = (tag.Name, tag.Digest) ∧
        verifyTag (w.verify j tag) a.rules tag = none ∧
        (∃ a1 a2, applyTag (w.apply j tag) tag a1 = .ok a2) := by
  intro ws
  induction ws with
  | nil => intro a p h; exact Or.inl h
  | cons w ws ih =>
    intro a p h
    have here : p ∈ ((checkRepository compile w a).agent a).repoState.Applied →
        p ∈ a.repoState.Applied ∨
        ∃ w' ∈ w :: ws, ∃ j tag, p = (tag.Name, tag.Digest) ∧
          verifyTag (w'.verify j tag) a.rules tag = none ∧
          (∃ a1 a2, applyTag (w'.apply j tag) tag a1 = .ok a2) := by
      intro h
      rcases checkRepository_applied compile w a p h with h | ⟨j, tag, hp, _, hv, ha⟩
      · exact Or.inl h
      · exact Or.inr ⟨w, List.mem_cons_self _ _, j, tag, hp, hv, ha⟩
    rcases runTicks_cons compile w ws a with e | e
    · rw [e] at h
      exact here h
    · rw [e] at h
      rcases ih _ p h with h | ⟨w', hw', j, tag, hp, hv, ha⟩
      · exact here h
      · refine Or.inr ⟨w', List.mem_cons_of_mem _ hw', j, tag, hp, ?_, ha⟩
        rw [verifyTag_congr _ a.rules _ tag (checkRepository_rules compile w a).2.1.symm]
        exact hv

/-- C1. When `verifyTag` returns an error for a tag, `processTag` returns that
error with the process state as it was except for `ready`, which it has set to
false: `applyTag` has not run, `repoState` and `history` are untouched.  And
after any run of ticks from the initial state, each pair of `Applied` is the
name and digest of a tag for which, in one of the ticks, `verifyTag` returned
nil and `applyTag` then succeeded. -/
theorem verification_error_never_applied (compile : String → Option Regexp)
    (rules_file repositoryURL only : String) (t0 : Nat) :
    (∀ (w : World) (j : Nat) (tag : Tag) (a : Agent) (err : VerifyError),
      verifyTag (w.verify j tag) a.rules tag = some err →
      processTag w j tag a = .failed err { a with ready := false }) ∧
    (∀ (ws : List World) (n d : String),
      (n, d) ∈ (runTicks compile ws
        (initAgent rules_file repositoryURL only t0)).repoState.Applied →
      ∃ w ∈ ws, ∃ j tag, tag.Name = n ∧ tag.Digest = d ∧
        verifyTag (w.verify j tag) (initAgent rules_file repositoryURL only t0).rules tag = none ∧
        (∃ a1 a2, applyTag (w.apply j tag) tag a1 = .ok a2 ∧
          a2.repoState.Applied = mapAssign a1.repoState.Applied n d)) := by
  constructor
  · intro w j tag a err hv
    rcases processTag_cases w j tag a with ⟨err', hv', hp⟩ | ⟨hv', _⟩ | ⟨hv', _⟩
    · rw [hv] at hv'
      cases hv'
      exact hp
    · rw [hv] at hv'; cases hv'
    · rw [hv] at hv'; cases hv'
  · intro ws n d h
    rcases runTicks_applied compile ws _ _ h with h | ⟨w, hw, j, tag, hp, hv, a1, a2, ha⟩
    · simp [initAgent, NewOCIRepositoryInfo] at h
    · cases hp
      refine ⟨w, hw, j, tag, rfl, rfl, hv, a1, a2, ha, ?_⟩
      rw [applyTag_ok ha]
      rfl

/-- C3. After any run of ticks from the initial state, no tag of
`repoState.Tags` and no key of `repoState.Applied` has a name that ends in
`.sig`. -/
theorem sig_names_never_known_nor_applied (compile : String → Option Regexp)
    (rules_file repositoryURL only : String) (t0 : Nat) (ws : List World) :
    (∀ t ∈ (runTicks compile ws (initAgent rules_file repositoryURL only t0)).repoState.Tags,
      HasSuffix t.Name ".sig" = false) ∧
    (∀ k ∈ mapKeys
        (runTicks compile ws (initAgent rules_file repositoryURL only t0)).repoState.Applied,
      HasSuffix k ".sig" = false) := by
  have notSig : ∀ (r : Rules) (applied : List (String × String)) (n : String),
      candidate compile r applied n = true → HasSuffix n ".sig" = false := by
    intro r applied n h
    unfold candidate at h
    cases hs : HasSuffix n ".sig" with
    | false => rfl
    | true => simp [hs] at h
  refine runTicks_induct compile
    (fun b => (∀ t ∈ b.repoState.Tags, HasSuffix t.Name ".sig" = false) ∧
      (∀ k ∈ mapKeys b.repoState.Applied, HasSuffix k ".sig" = false))
    ?_ ws _ ?_
  · intro w b hb
    constructor
    · intro t ht
      rcases checkRepository_tags compile w b t ht with h | h
      · exact hb.1 t h
      · exact notSig _ _ _ h
    · intro k hk
      obtain ⟨p, hp, rfl⟩ := List.mem_map.mp hk
      rcases checkRepository_applied compile w b p hp with h | ⟨j, tag, hpe, hc, _⟩
      · exact hb.2 _ (List.mem_map.mpr ⟨p, h, rfl⟩)
      · rw [hpe]
        exact notSig _ _ _ hc
  · constructor
    · intro t ht
      simp [initAgent, NewOCIRepositoryInfo] at ht
    · intro k hk
      simp [initAgent, NewOCIRepositoryInfo, mapKeys] at hk

/-- C4. After any run of ticks from the initial state, `Rules.Matches` answers
true for every key of `repoState.Applied`, whether it is asked of the rule as
loaded or of the rule as the ticks left it. -/
theorem applied_names_match_rule (compile : String → Option Regexp)
    (rules_file repositoryURL only : String) (t0 : Nat) (ws : List World) :
    ∀ k ∈ mapKeys
        (runTicks compile ws (initAgent rules_file repositoryURL only t0)).repoState.Applied,
      ((initAgent rules_file repositoryURL only t0).rules.Matches compile k).1 = true ∧
      ((runTicks compile ws (initAgent rules_file repositoryURL only t0)).rules.Matches
        compile k).1 = true := by
  have key : ∀ k ∈ mapKeys
      (runTicks compile ws (initAgent rules_file repositoryURL only t0)).repoState.Applied,
      (initAgent rules_file repositoryURL only t0).rules.matchFn compile k = true := by
    have := runTicks_induct compile
      (fun b => b.rules.matchFn compile
          = (initAgent rules_file repositoryURL only t0).rules.matchFn compile ∧
        ∀ k ∈ mapKeys b.repoState.Applied,
          (initAgent rules_file repositoryURL only t0).rules.matchFn compile k = true)
      ?_ ws (initAgent rules_file repositoryURL only t0) ?_
    · exact this.2
    · intro w b hb
      refine ⟨(checkRepository_rules compile w b).1.trans hb.1, ?_⟩
      intro k hk
      obtain ⟨p, hp, rfl⟩ := List.mem_map.mp hk
      rcases checkRepository_applied compile w b p hp with h | ⟨j, tag, hpe, hc, _⟩
      · exact hb.2 _ (List.mem_map.mpr ⟨p, h, rfl⟩)
      · rw [hpe, ← hb.1]
        unfold candidate at hc
        simp only [Bool.and_eq_true] at hc
        exact hc.1.2
    · refine ⟨rfl, ?_⟩
      intro k hk
      simp [initAgent, NewOCIRepositoryInfo, mapKeys] at hk
  intro k hk
  refine ⟨?_, ?_⟩
  · rw [Matches_fst]; exact key k hk
  · rw [Matches_fst, (runTicks_rules compile ws _).1]; exact key k hk

theorem applied_names_match_rule_witness :
    "v1" ∈ mapKeys (runTicks demoCompile
      [demoWorld ["v1", "v1.sig", "latest"] "sha256:aaa" [demoSignature "sha256:aaa" true]]
      demoAgent).repoState.Applied ∧
    (demoAgent.rules.Matches demoCompile "v1").1 = true :=
  ⟨by decide,
    (applied_names_match_rule demoCompile "/etc/agent/rules.yaml" "registry:5000/demo"
      "^v[0-9]+$" 1
      [demoWorld ["v1", "v1.sig", "latest"] "sha256:aaa" [demoSignature "sha256:aaa" true]]
      "v1" (by decide)).1⟩


/-! ## Signature verification -/

/-- The loop of `verifyTag` ends in its first pass: its outcome is the outcome
of the first signature. -/
theorem verifySignatures_cons (tag : Tag) (sig : Signature) (rest : List Signature) :
    verifySignatures tag (sig :: rest) = verifySignatures tag [sig] := by
  simp only [verifySignatures]
  unfold verifySignature
  cases sig.base64Signature with
  | none => rfl
  | some s =>
    cases sig.payload with
    | none => rfl
    | some p =>
      cases sig.decodes with
      | false => rfl
      | true =>
        cases sig.signedDigest with
        | none => rfl
        | some d =>
          by_cases hd : d = tag.Digest
          · cases sig.verifies <;> simp [hd]
          · simp [hd]

/-- C2. For the tag `v2` with digest `sha256:bbb` and the signature list
whose first signature names the digest `sha256:ccc` and whose second names
`sha256:bbb` and verifies, `verifyTag` returns the digest-mismatch error of the
first signature, although the list holds a signature that is bound to the
tag's digest and verifies. -/
theorem verifyTag_rejects_on_first_signature :
    verifyTag
        (demoVerifyEnv [demoSignature "sha256:ccc" true, demoSignature "sha256:bbb" true])
        demoAgent.rules { Name := "v2", Digest := "sha256:bbb", Annotations := [] }
      = some (.digestMismatch "sha256:bbb" "sha256:ccc") ∧
    ∃ sig ∈ [demoSignature "sha256:ccc" true, demoSignature "sha256:bbb" true],
      sig.signedDigest = some "sha256:bbb" ∧ sig.verifies = true := by
  refine ⟨by decide, demoSignature "sha256:bbb" true, by decide, by decide, by decide⟩

/-! ## Readiness -/

/-- C5. In the initial state, with a registry that lists the matching tag
`v1` for which no signature is found, `processTag` returns the verification
error with `ready` false; the tick ends with `ready` false, and the next call
of `checkRepository` never leaves its wait for readiness. -/
theorem rejected_tag_leaves_ready_false :
    processTag (demoWorld ["v1"] "sha256:aaa" []) 0
        { Name := "v1", Digest := "sha256:aaa", Annotations := [] } demoAgent
      = .failed .noSignaturesFound { demoAgent with ready := false } ∧
    demoAgent.ready = true ∧
    ((checkRepository demoCompile (demoWorld ["v1"] "sha256:aaa" []) demoAgent).agent
      demoAgent).ready = false ∧
    checkRepository demoCompile (demoWorld ["v1"] "sha256:aaa" [])
        ((checkRepository demoCompile (demoWorld ["v1"] "sha256:aaa" []) demoAgent).agent
          demoAgent)
      = .waiting := by
  refine ⟨rfl, rfl, by decide, rfl⟩

/-! ## Rules that do not compile -/

/-- C9. For a rule as loaded from the rules file (no matcher cached) whose
`only` pattern `regexp.Compile` rejects, `Rules.Matches` answers false for every
tag name and leaves the rule as it was, so every call of any sequence of
calls, the first and all later ones, answers false. -/
theorem matches_false_when_pattern_invalid (compile : String → Option Regexp)
    (repositoryURL only : String) (hbad : compile only = none) :
    (∀ tag : String,
      ({ RepositoryURL := repositoryURL, Only := only, matcher := none } : Rules).Matches
        compile tag
        = (false, { RepositoryURL := repositoryURL, Only := only, matcher := none })) ∧
    (∀ tags : List String,
      Rules.matchesSeq compile { RepositoryURL := repositoryURL, Only := only, matcher := none }
        tags = List.replicate tags.length false) := by
  have h1 : ∀ tag : String,
      ({ RepositoryURL := repositoryURL, Only := only, matcher := none } : Rules).Matches
        compile tag
        = (false, { RepositoryURL := repositoryURL, Only := only, matcher := none }) := by
    intro tag
    simp [Rules.Matches, hbad]
  refine ⟨h1, ?_⟩
  intro tags
  induction tags with
  | nil => rfl
  | cons t ts ih =>
    rw [Rules.matchesSeq, h1 t]
    simp only [List.length_cons, List.replicate_succ]
    rw [ih]

theorem matches_false_when_pattern_invalid_witness :
    demoCompile "[unclosed" = none ∧
    Rules.matchesSeq demoCompile
      { RepositoryURL := "registry:5000/demo", Only := "[unclosed", matcher := none }
      ["v1", "v2", "latest"] = [false, false, false] :=
  ⟨rfl,
    (matches_false_when_pattern_invalid demoCompile "registry:5000/demo" "[unclosed"
      rfl).2 ["v1", "v2", "latest"]⟩


/-! ## History ring -/

theorem TaskHistory.addAll_append (h : TaskHistory) (es : List HistoryEntry) (e : HistoryEntry) :
    h.addAll (es ++ [e]) = (h.addAll es).AddEntry e.Timestamp e.Operation e.Details := by
  simp [TaskHistory.addAll, List.foldl_append]

theorem ringInv_empty : RingInv TaskHistory.empty [] := by
  refine ⟨by simp [TaskHistory.empty], rfl, rfl, ?_, ?_⟩
  · intro k hk; simp at hk
  · intro j _ hj
    exact List.getElem?_replicate_of_lt hj

theorem ringInv_addEntry {h : TaskHistory} {es : List HistoryEntry} (inv : RingInv h es)
    (e : HistoryEntry) :
    RingInv (h.AddEntry e.Timestamp e.Operation e.Details) (es ++ [e]) := by
  have hlen := inv.len
  have hpos := inv.pos
  have hcount := inv.count
  have hlt : es.length % 100 < 100 := Nat.mod_lt _ (by decide)
  refine ⟨?_, ?_, ?_, ?_, ?_⟩
  · simp [TaskHistory.AddEntry, hlen]
  · simp only [TaskHistory.AddEntry, hlen, hpos, List.length_append, List.length_singleton]
    omega
  · simp only [TaskHistory.AddEntry, hlen, hcount, List.length_append, List.length_singleton]
    split <;> omega
  · intro k hk hwin
    simp only [List.length_append, List.length_singleton] at hk hwin
    simp only [TaskHistory.AddEntry, hpos]
    by_cases hkn : k = es.length
    · subst hkn
      rw [List.getElem?_set_self (by omega)]
      simp
    · have hne : es.length % 100 ≠ k % 100 := by omega
      rw [List.getElem?_set_ne hne, inv.live k (by omega) (by omega),
        List.getElem?_append_left (by omega)]
  · intro j hj hj100
    simp only [List.length_append, List.length_singleton] at hj
    simp only [TaskHistory.AddEntry, hpos]
    have hne : es.length % 100 ≠ j := by omega
    rw [List.getElem?_set_ne hne]
    exact inv.blank j (by omega) hj100

theorem ringInv_addAll (es : List HistoryEntry) : RingInv (TaskHistory.empty.addAll es) es := by
  induction es using List.reverseRecOn with
  | nil => exact ringInv_empty
  | append_singleton es e ih =>
    rw [TaskHistory.addAll_append]
    exact ringInv_addEntry ih e

/-- C6. After `n` calls of `AddEntry` on the empty history the entry count is
`min n 100` (so at most 100), the write position is `n mod 100`, the array still
has its 100 slots, every one of the last `min n 100` entries added is in the slot
given by its index modulo 100, every slot not yet written holds the zero entry,
and read from the oldest live slot on the array gives exactly the last
`min n 100` entries added, in the order they were added.  When the array is full
after 100 calls, the next call replaces slot 0, the oldest entry, and leaves the
other slots as they were. -/
theorem history_ring_holds_last_entries (es : List HistoryEntry) :
    (TaskHistory.empty.addAll es).count = min es.length 100 ∧
    (TaskHistory.empty.addAll es).count ≤ 100 ∧
    (TaskHistory.empty.addAll es).pos = es.length % 100 ∧
    (TaskHistory.empty.addAll es).entries.length = 100 ∧
    (∀ k, k < es.length → es.length ≤ k + 100 →
      (TaskHistory.empty.addAll es).entries[k % 100]? = es[k]?) ∧
    (∀ j, es.length ≤ j → j < 100 →
      (TaskHistory.empty.addAll es).entries[j]? = some HistoryEntry.zero) ∧
    (List.range (TaskHistory.empty.addAll es).count).map
        (fun i => (TaskHistory.empty.addAll es).entries[
          ((TaskHistory.empty.addAll es).pos + 100 - (TaskHistory.empty.addAll es).count + i)
            % 100]?) =
      (es.drop (es.length - min es.length 100)).map some ∧
    (∀ e : HistoryEntry, es.length = 100 →
      (TaskHistory.empty.addAll es).entries = es ∧
      (TaskHistory.empty.addAll (es ++ [e])).entries = e :: es.tail) := by
  have inv := ringInv_addAll es
  refine ⟨inv.count, ?_, inv.pos, inv.len, inv.live, inv.blank, ?_, ?_⟩
  · rw [inv.count]; omega
  · apply List.ext_getElem?
    intro i
    rw [inv.count, inv.pos]
    by_cases hi : i < min es.length 100
    · have h1 : (es.length % 100 + 100 - min es.length 100 + i) % 100
          = (es.length - min es.length 100 + i) % 100 := by omega
      simp only [List.getElem?_map, List.getElem?_range hi, Option.map_some', h1,
        List.getElem?_drop]
      rw [inv.live _ (by omega) (by omega)]
      have : es.length - min es.length 100 + i < es.length := by omega
      simp [List.getElem?_eq_getElem this]
    · have h2 : (List.map some (List.drop (es.length - min es.length 100) es)).length ≤ i := by
        simp only [List.length_map, List.length_drop]; omega
      have h3 : (List.map (fun i => (TaskHistory.empty.addAll es).entries[
          (es.length % 100 + 100 - min es.length 100 + i) % 100]?)
          (List.range (min es.length 100))).length ≤ i := by
        simp only [List.length_map, List.length_range]; omega
      rw [List.getElem?_eq_none h3, List.getElem?_eq_none h2]
  · intro e hlen
    have hfull : (TaskHistory.empty.addAll es).entries = es := by
      apply List.ext_getElem?
      intro k
      by_cases hk : k < 100
      · have := inv.live k (by omega) (by omega)
        rwa [Nat.mod_eq_of_lt hk] at this
      · rw [List.getElem?_eq_none (by rw [inv.len]; omega),
          List.getElem?_eq_none (by omega)]
    refine ⟨hfull, ?_⟩
    rw [TaskHistory.addAll_append]
    simp only [TaskHistory.AddEntry, inv.pos, hlen, hfull]
    cases es with
    | nil => simp at hlen
    | cons x xs => simp

/-! ## The candidates of a tick -/

theorem notKnown_eq (a : Agent) (t : Tag) :
    notKnown a t = decide (t.Name ∉ a.repoState.Tags.map Tag.Name) := by
  unfold notKnown
  cases h : List.findIdx? (fun t' => t'.Name == t.Name) a.repoState.Tags with
  | none =>
    rw [List.findIdx?_eq_none_iff] at h
    simp only [Option.isNone_none]
    symm
    rw [decide_eq_true_iff]
    intro hmem
    obtain ⟨t', ht', hn⟩ := List.mem_map.mp hmem
    have := h t' ht'
    simp [hn] at this
  | some i =>
    simp only [Option.isNone_some]
    symm
    rw [decide_eq_false_iff_not, not_not]
    have hi := List.findIdx?_eq_some_iff_getElem.mp h
    obtain ⟨hlt, hp, _⟩ := hi
    have hname : (a.repoState.Tags[i]).Name = t.Name := by simpa using hp
    exact List.mem_map.mpr ⟨a.repoState.Tags[i], List.getElem_mem _, hname⟩

/-- The loop changes the digest recorded for a name only when a fetched tag
has that name. -/
theorem processTags_mapIndex (w : World) (tags : List Tag) (x : String) :
    ∀ (j : Nat) (a : Agent),
      mapIndex (processTags w j tags a).agent.repoState.Applied x
          ≠ mapIndex a.repoState.Applied x →
      ∃ t ∈ tags, t.Name = x := by
  induction tags with
  | nil => intro j a h; exact absurd rfl h
  | cons tag rest ih =>
    intro j a
    have lift : (∃ t ∈ rest, t.Name = x) → ∃ t ∈ tag :: rest, t.Name = x := by
      rintro ⟨t, ht, hx⟩
      exact ⟨t, List.mem_cons_of_mem _ ht, hx⟩
    cases hk : notKnown a tag with
    | false =>
      rw [processTags_known hk]
      exact fun h => lift (ih (j + 1) a h)
    | true =>
      rw [processTags_new hk]
      rcases processTag_cases w j tag a with ⟨err, _, hp⟩ | ⟨_, err, _, hp⟩ | ⟨_, _, hp⟩
      · rw [hp]
        exact fun h => lift (ih (j + 1) _ h)
      · rw [hp]
        exact fun h => absurd rfl h
      · obtain ⟨a1, hp, hA⟩ : ∃ a1 : Agent, processTag w j tag a = .ok a1 ∧
            a1.repoState.Applied = mapAssign a.repoState.Applied tag.Name tag.Digest :=
          ⟨_, hp, rfl⟩
        rw [hp]
        intro h
        by_cases hx : tag.Name = x
        · exact ⟨tag, List.mem_cons_self _ _, hx⟩
        · refine lift (ih (j + 1) a1 ?_)
          intro e
          apply h
          show mapIndex (processTags w (j + 1) rest a1).agent.repoState.Applied x = _
          rw [e, hA, mapIndex_mapAssign, if_neg hx]

theorem candidate_eq (compile : String → Option Regexp) (a : Agent) (n : String) :
    isCandidate compile a n =
      (decide (n ∉ a.repoState.Tags.map Tag.Name) &&
        candidate compile a.rules a.repoState.Applied n) := by
  unfold isCandidate candidate
  rw [Matches_fst]
  cases HasSuffix n ".sig" <;> cases a.rules.matchFn compile n <;>
    by_cases h : mapIndex a.repoState.Applied n = "" <;>
    by_cases h2 : n ∈ a.repoState.Tags.map Tag.Name <;> simp [h, h2]

/-- The tags a tick hands to `processTag`, when the registry answers with the
tag list `names` and the manifest of every name that passes the tests of
`fetchTags` is fetched. -/
theorem looped_handed (compile : String → Option Regexp) (w : World) (a : Agent)
    (names : List String)
    (hmeta : ∀ k n, names[k]? = some n →
      candidate compile a.rules a.repoState.Applied n = true →
      ∃ tag, fetchTagMetadata w k (registryOf a) (repositoryOf a) n = .ok tag) :
    (looped compile w a names).handed.map Tag.Name <+: names.filter (isCandidate compile a) ∧
    ((looped compile w a names).exited = false →
      (looped compile w a names).handed.map Tag.Name
        = names.filter (isCandidate compile a)) := by
  have hnames : (fetched compile w a names).2.map Tag.Name
      = names.filter (candidate compile a.rules a.repoState.Applied) :=
    fetchTagsLoop_names compile w _ _ _ names 0 a.rules
      (fun k n hk hc => by simpa using hmeta k n hk hc)
  have hfilter : ((fetched compile w a names).2.filter (notKnown a)).map Tag.Name
      = names.filter (isCandidate compile a) := by
    have h1 : notKnown a
        = (fun n => decide (n ∉ a.repoState.Tags.map Tag.Name)) ∘ Tag.Name := by
      funext t
      exact notKnown_eq a t
    rw [h1, ← List.filter_map, hnames, List.filter_filter]
    apply List.filter_congr
    intro n _
    rw [candidate_eq]
  have hh := processTags_handed w (fetched compile w a names).2 0
    { a with rules := (fetched compile w a names).1 }
  rw [@notKnown_congr { a with rules := (fetched compile w a names).1 } a rfl]
    at hh
  unfold looped
  refine ⟨?_, fun hex => ?_⟩
  · rw [← hfilter]
    exact hh.1.map _
  · rw [← hfilter, hh.2 hex]

theorem applyTag_error_succeeds {env : ApplyEnv} {tag : Tag} {a : Agent} {err : ApplyError}
    (h : applyTag env tag a = .error err) : env.succeeds = false := by
  unfold applyTag at h
  unfold ApplyEnv.succeeds
  cases h1 : env.fileStore
  · rfl
  · cases h2 : env.newRepository
    · rfl
    · cases h3 : env.copy
      · rfl
      · cases h4 : env.applyFiles
        · rfl
        · simp [h1, h2, h3, h4] at h

/-- The process ends inside the loop only at a tag that `verifyTag` accepted
and whose `applyTag` failed. -/
theorem processTags_exited (w : World) (tags : List Tag) :
    ∀ (j : Nat) (a : Agent), (processTags w j tags a).exited = true →
      ∃ i tag, verifyTag (w.verify i tag) a.rules tag = none ∧
        (w.apply i tag).succeeds = false := by
  induction tags with
  | nil => intro j a h; simp [processTags] at h
  | cons tag rest ih =>
    intro j a
    cases hk : notKnown a tag with
    | false => rw [processTags_known hk]; exact ih (j + 1) a
    | true =>
      rw [processTags_new hk]
      rcases processTag_cases w j tag a with ⟨err, _, hp⟩ | ⟨hv, err, ha, hp⟩ | ⟨_, _, hp⟩
      · rw [hp]
        exact fun h => ih (j + 1) { a with ready := false } h
      · rw [hp]
        exact fun _ => ⟨j, tag, hv, applyTag_error_succeeds ha⟩
      · obtain ⟨a1, hp, hR⟩ : ∃ a1 : Agent, processTag w j tag a = .ok a1 ∧
            a1.rules = a.rules := ⟨_, hp, rfl⟩
        rw [hp]
        intro h
        have := ih (j + 1) a1 h
        rwa [hR] at this

/-- C8. In a tick that gets past the readiness wait and the URL check, in
which the registry answers 200 with the tag list `names` and the manifest of
every name that passes the tests of `fetchTags` is fetched: the names of the
tags handed to `processTag`, in call order, are a leading part of `names`
restricted to the names that (a) do not end in `.sig`, (b) `Rules.Matches`
accepts, (c) have no digest recorded in `Applied` and (d) are the name of no tag
of `repoState.Tags`; they are the whole of that list when the process does not
end inside `processTag`, and it does not end there, the call returning nil,
when no `applyTag` call made for an accepted tag fails.  When no pair of
`Applied` has an empty digest, (c) is the same as not being a key of
`Applied`. -/
theorem handed_tags_are_the_candidates (compile : String → Option Regexp) (w : World)
    (a : Agent) (names : List String)
    (hready : a.ready = true)
    (hurl : (FindStringSubmatch a.rules.RepositoryURL).length = 3)
    (hlist : w.tagsList (tagsListURL a) = .response 200 (some names))
    (hmeta : ∀ k n, names[k]? = some n →
      candidate compile a.rules a.repoState.Applied n = true →
      ∃ tag, fetchTagMetadata w k (registryOf a) (repositoryOf a) n = .ok tag) :
    (checkRepository compile w a).handed.map Tag.Name
      <+: names.filter (isCandidate compile a) ∧
    ((∀ a1 handed, checkRepository compile w a ≠ .exited a1 handed) →
      (checkRepository compile w a).handed.map Tag.Name
        = names.filter (isCandidate compile a)) ∧
    ((∀ j tag, verifyTag (w.verify j tag) a.rules tag = none →
        (w.apply j tag).succeeds = true) →
      (∃ a1, checkRepository compile w a
        = .returned none a1 (checkRepository compile w a).handed) ∧
      (checkRepository compile w a).handed.map Tag.Name
        = names.filter (isCandidate compile a)) ∧
    ((∀ p ∈ a.repoState.Applied, p.2 ≠ "") →
      ∀ n, mapIndex a.repoState.Applied n = "" ↔ n ∉ mapKeys a.repoState.Applied) := by
  have hcheck := checkRepository_listed compile w a names hready hurl hlist
  have hhanded : (checkRepository compile w a).handed = (looped compile w a names).handed := by
    rw [hcheck]
    split <;> rfl
  refine ⟨?_, ?_, ?_, fun hne n => mapIndex_eq_empty_iff hne n⟩
  · rw [hhanded]
    exact (looped_handed compile w a names hmeta).1
  · intro hne
    rw [hhanded]
    apply (looped_handed compile w a names hmeta).2
    cases hex : (looped compile w a names).exited with
    | false => rfl
    | true =>
      rw [hcheck, hex] at hne
      exact absurd rfl (hne _ _)
  · intro hok
    have hex : (looped compile w a names).exited = false := by
      cases hex : (looped compile w a names).exited with
      | false => rfl
      | true =>
        obtain ⟨i, tag, hv, hf⟩ := processTags_exited w _ 0 _ hex
        rw [verifyTag_congr _ _ a.rules tag (fetched_rules compile w a names).2.1] at hv
        rw [hok i tag hv] at hf
        cases hf
    refine ⟨?_, ?_⟩
    · rw [hhanded, hcheck, hex]
      exact ⟨_, rfl⟩
    · rw [hhanded]
      exact (looped_handed compile w a names hmeta).2 hex

/-- C8, at a tick in which an apply fails. In the initial state the registry
lists `v1` and `v2`, both manifests are fetched and both tags pass (a) to (d),
the signature of `v1` verifies and the copy of `v1` from the registry fails:
the process ends inside `processTag` for `v1`, so the only tag handed to
`processTag` is `v1`, while the list restricted by (a) to (d) is `v1`, `v2`. -/
theorem apply_failure_cuts_the_candidates :
    demoAgent.ready = true ∧
    (FindStringSubmatch demoAgent.rules.RepositoryURL).length = 3 ∧
    (demoWorldCopyFails ["v1", "v2"] "sha256:aaa" [demoSignature "sha256:aaa" true]).tagsList
        (tagsListURL demoAgent) = .response 200 (some ["v1", "v2"]) ∧
    (∀ (k : Nat) (n : String), ∃ tag,
      fetchTagMetadata
        (demoWorldCopyFails ["v1", "v2"] "sha256:aaa" [demoSignature "sha256:aaa" true])
        k (registryOf demoAgent) (repositoryOf demoAgent) n = .ok tag) ∧
    List.filter (isCandidate demoCompile demoAgent) ["v1", "v2"] = ["v1", "v2"] ∧
    (checkRepository demoCompile
        (demoWorldCopyFails ["v1", "v2"] "sha256:aaa" [demoSignature "sha256:aaa" true])
        demoAgent).handed.map Tag.Name = ["v1"] ∧
    (checkRepository demoCompile
        (demoWorldCopyFails ["v1", "v2"] "sha256:aaa" [demoSignature "sha256:aaa" true])
        demoAgent).handed.map Tag.Name
      ≠ List.filter (isCandidate demoCompile demoAgent) ["v1", "v2"] :=
  ⟨rfl, by decide, rfl, fun _ _ => ⟨_, rfl⟩, by decide, by decide, by decide⟩


/-! ## Running a tick again -/

theorem candidate_congr (compile : String → Option Regexp) {r r' : Rules}
    (h : r.matchFn compile = r'.matchFn compile) (applied : List (String × String)) (n : String) :
    candidate compile r applied n = candidate compile r' applied n := by
  unfold candidate
  rw [h]

theorem candidate_applied {compile : String → Option Regexp} {r : Rules}
    {applied : List (String × String)} {n : String} (h : candidate compile r applied n = true) :
    mapIndex applied n = "" := by
  unfold candidate at h
  simp only [Bool.and_eq_true, beq_iff_eq] at h
  exact h.2

theorem candidate_of_applied {compile : String → Option Regexp} {r : Rules}
    {applied applied' : List (String × String)} {n : String}
    (h : candidate compile r applied' n = true) (ha : mapIndex applied n = "") :
    candidate compile r applied n = true := by
  unfold candidate at h ⊢
  simp only [Bool.and_eq_true, beq_iff_eq] at h ⊢
  exact ⟨h.1, ha⟩

/-- After a tick that ran its loop to the end, every tag the same registry
answers would make `fetchTags` return again is already in `repoState.Tags`. -/
theorem refetched_known (compile : String → Option Regexp) (w : World) (a a1 : Agent)
    (names : List String)
    (hrules : a1.rules = (fetched compile w a names).1)
    (htags : a1.repoState.Tags = (fetched compile w a names).2)
    (happlied : a1.repoState.Applied = (looped compile w a names).agent.repoState.Applied) :
    ∀ t ∈ (fetched compile w a1 names).2, notKnown a1 t = false := by
  intro t ht
  have hfr := fetched_rules compile w a names
  have hurl : a1.rules.RepositoryURL = a.rules.RepositoryURL := by rw [hrules]; exact hfr.2.1
  have hmatch : a1.rules.matchFn compile = a.rules.matchFn compile := by
    rw [hrules]; exact hfr.1
  have hreg : registryOf a1 = registryOf a := by unfold registryOf; rw [hurl]
  have hrepo : repositoryOf a1 = repositoryOf a := by unfold repositoryOf; rw [hurl]
  obtain ⟨k, n, hk, hc, hf⟩ :=
    (mem_fetchTagsLoop compile w _ _ _ names t 0 a1.rules).mp ht
  rw [candidate_congr compile hmatch] at hc
  have hempty : mapIndex a.repoState.Applied n = "" := by
    by_contra hne
    have hchanged : mapIndex (looped compile w a names).agent.repoState.Applied n
        ≠ mapIndex a.repoState.Applied n := by
      rw [← happlied, candidate_applied hc]
      exact fun e => hne e.symm
    obtain ⟨t', ht', hn⟩ := processTags_mapIndex w _ n 0 _ hchanged
    obtain ⟨k', n', _, hc', hf'⟩ :=
      (mem_fetchTagsLoop compile w _ _ _ names t' 0 a.rules).mp ht'
    rw [← fetchTagMetadata_name hf', hn] at hc'
    exact hne (candidate_applied hc')
  have hmem : t ∈ (fetched compile w a names).2 := by
    refine (mem_fetchTagsLoop compile w _ _ _ names t 0 a.rules).mpr ⟨k, n, hk, ?_, ?_⟩
    · exact candidate_of_applied hc hempty
    · rw [← hreg, ← hrepo]; exact hf
  rw [notKnown_eq, decide_eq_false_iff_not, not_not, htags]
  exact List.mem_map_of_mem _ hmem

/-- C7. When a call of `checkRepository` has returned, a second call in the
state it left, with the same registry answers and the same verify and apply
outcomes, hands no tag to `processTag` and leaves `repoState.Applied` and the
history as they were. -/
theorem second_tick_hands_nothing (compile : String → Option Regexp) (w : World)
    (a a1 : Agent) (err : Option CheckError) (handed : List Tag)
    (h : checkRepository compile w a = .returned err a1 handed) :
    (checkRepository compile w a1).handed = [] ∧
    ((checkRepository compile w a1).agent a1).repoState.Applied = a1.repoState.Applied ∧
    ((checkRepository compile w a1).agent a1).history = a1.history := by
  rcases checkRepository_cases compile w a with ⟨_, h1⟩ | ⟨_, err1, h1⟩ | ⟨_, _, names, hl, h1⟩
  · rw [h1] at h; cases h
  · rw [h1] at h
    cases h
    rw [h1]
    exact ⟨rfl, rfl, rfl⟩
  · rw [h1] at h
    split at h
    · cases h
    · cases h
      have hfr := fetched_rules compile w a names
      have hlr := looped_rules compile w a names
      generalize ha1 : ({ (looped compile w a names).agent with
          repoState :=
            { (looped compile w a names).agent.repoState with
              Tags := (fetched compile w a names).2, LastUpdated := w.now } } : Agent) = a1
      have hrules : a1.rules = (fetched compile w a names).1 := by rw [← ha1]; exact hlr
      have htags : a1.repoState.Tags = (fetched compile w a names).2 := by rw [← ha1]
      have happlied : a1.repoState.Applied
          = (looped compile w a names).agent.repoState.Applied := by rw [← ha1]
      rcases checkRepository_cases compile w a1 with
        ⟨_, h2⟩ | ⟨_, err2, h2⟩ | ⟨_, _, names2, hl2, h2⟩
      · rw [h2]; exact ⟨rfl, rfl, rfl⟩
      · rw [h2]; exact ⟨rfl, rfl, rfl⟩
      · have hsame : names2 = names := by
          have hurl : tagsListURL a1 = tagsListURL a := by
            unfold tagsListURL registryOf repositoryOf
            rw [hrules, hfr.2.1]
          rw [hurl, hl] at hl2
          cases hl2
          rfl
        subst hsame
        have hknown := refetched_known compile w a a1 names2 hrules htags happlied
        have hnil : (looped compile w a1 names2).handed = [] := by
          have hh := (processTags_handed w (fetched compile w a1 names2).2 0
            { a1 with rules := (fetched compile w a1 names2).1 }).1
          rw [@notKnown_congr { a1 with rules := (fetched compile w a1 names2).1 } a1 rfl,
            List.filter_eq_nil_iff.mpr (fun t ht => by simp [hknown t ht])] at hh
          exact List.prefix_nil.mp hh
        have hsame := processTags_handed_nil w (fetched compile w a1 names2).2 0
          { a1 with rules := (fetched compile w a1 names2).1 } hnil
        have hagent : (looped compile w a1 names2).agent
            = { a1 with rules := (fetched compile w a1 names2).1 } := hsame.1
        have hex : (looped compile w a1 names2).exited = false := hsame.2
        rw [h2, hex, hnil, hagent]
        exact ⟨rfl, rfl, rfl⟩


theorem second_tick_hands_nothing_witness :
    checkRepository demoCompile
        (demoWorld ["v1", "v1.sig", "latest"] "sha256:aaa" [demoSignature "sha256:aaa" true])
        demoAgent
      = .returned none
          ((checkRepository demoCompile
            (demoWorld ["v1", "v1.sig", "latest"] "sha256:aaa" [demoSignature "sha256:aaa" true])
            demoAgent).agent demoAgent)
          [{ Name := "v1", Digest := "sha256:aaa", Annotations := [] }] ∧
    (checkRepository demoCompile
        (demoWorld ["v1", "v1.sig", "latest"] "sha256:aaa" [demoSignature "sha256:aaa" true])
        ((checkRepository demoCompile
          (demoWorld ["v1", "v1.sig", "latest"] "sha256:aaa" [demoSignature "sha256:aaa" true])
          demoAgent).agent demoAgent)).handed = [] :=
  ⟨rfl,
    (second_tick_hands_nothing demoCompile
      (demoWorld ["v1", "v1.sig", "latest"] "sha256:aaa" [demoSignature "sha256:aaa" true])
      demoAgent _ none [{ Name := "v1", Digest := "sha256:aaa", Annotations := [] }] rfl).1⟩

theorem handed_tags_are_the_candidates_witness :
    List.filter (isCandidate demoCompile demoAgent) ["v1", "v1.sig", "latest", "v2"]
      = ["v1", "v2"] ∧
    (checkRepository demoCompile
        (demoWorld ["v1", "v1.sig", "latest", "v2"] "sha256:aaa"
          [demoSignature "sha256:aaa" true])
        demoAgent).handed.map Tag.Name
      = List.filter (isCandidate demoCompile demoAgent) ["v1", "v1.sig", "latest", "v2"] :=
  ⟨by decide,
    ((handed_tags_are_the_candidates demoCompile
      (demoWorld ["v1", "v1.sig", "latest", "v2"] "sha256:aaa" [demoSignature "sha256:aaa" true])
      demoAgent ["v1", "v1.sig", "latest", "v2"] rfl (by decide) rfl
      (fun _ _ _ _ => ⟨_, rfl⟩)).2.2.1 (fun _ _ _ => rfl)).2⟩


/-! ## The repository URL -/

theorem takeWhile_dropWhile_slash (host path : List Char) (h : '/' ∉ host) :
    (host ++ '/' :: path).takeWhile (fun c => c != '/') = host ∧
    (host ++ '/' :: path).dropWhile (fun c => c != '/') = '/' :: path := by
  induction host with
  | nil => simp [List.takeWhile, List.dropWhile]
  | cons c host ih =>
    simp only [List.mem_cons, not_or] at h
    have hc : (c != '/') = true := by
      simp only [bne_iff_ne, ne_eq]
      exact fun e => h.1 e.symm
    have := ih h.2
    simp only [List.cons_append, List.takeWhile_cons, List.dropWhile_cons, hc, if_true]
    exact ⟨by rw [this.1], this.2⟩

theorem dropWhile_slash_head (l : List Char) (c : Char) (path : List Char)
    (h : l.dropWhile (fun c => c != '/') = c :: path) : c = '/' := by
  induction l with
  | nil => simp at h
  | cons x l ih =>
    rw [List.dropWhile_cons] at h
    split at h
    · exact ih h
    · rename_i hx
      simp only [List.cons.injEq] at h
      rw [← h.1]
      simpa using hx

theorem data_of_form {url host path : String} :
    url = host ++ "/" ++ path ↔ url.data = host.data ++ '/' :: path.data := by
  rw [String.ext_iff]
  simp [String.data_append]

/-- The result of `FindStringSubmatch` on a URL split at its first `/`. -/
theorem FindStringSubmatch_of_form (url host path : String)
    (hform : url = host ++ "/" ++ path) (hslash : '/' ∉ host.data) :
    FindStringSubmatch url =
      if host.data.isEmpty || path.data.isEmpty || path.data.any (fun c => c == '\n') then []
      else [url, host, path] := by
  have hd := data_of_form.mp hform
  have hs := takeWhile_dropWhile_slash host.data path.data hslash
  unfold FindStringSubmatch
  rw [hd, hs.1, hs.2]

/-- The two outcomes of `FindStringSubmatch`: no match, or the URL split at its
first `/` into a host and a path, both not empty, the path free of line
feeds. -/
theorem FindStringSubmatch_cases (url : String) :
    FindStringSubmatch url = [] ∨
    ∃ host path : String, HostSlashPath url host path ∧ '\n' ∉ path.data ∧
      FindStringSubmatch url = [url, host, path] := by
  unfold FindStringSubmatch
  cases hdrop : url.data.dropWhile (fun c => c != '/') with
  | nil => exact Or.inl rfl
  | cons c path =>
    have hc := dropWhile_slash_head _ _ _ hdrop
    subst hc
    simp only []
    split
    · exact Or.inl rfl
    · rename_i hcond
      simp only [Bool.or_eq_true, not_or, Bool.not_eq_true] at hcond
      obtain ⟨⟨hhost, hpath⟩, hnl⟩ := hcond
      refine Or.inr ⟨⟨url.data.takeWhile (fun c => c != '/')⟩, ⟨path⟩, ⟨?_, ?_, ?_, ?_⟩, ?_, rfl⟩
      · rw [data_of_form]
        simp only []
        rw [← hdrop, List.takeWhile_append_dropWhile]
      · intro e
        have := congrArg String.data e
        simp only [] at this
        rw [this] at hhost
        simp at hhost
      · simp only []
        intro hmem
        have := List.mem_takeWhile_imp hmem
        simp at this
      · intro e
        have := congrArg String.data e
        simp only [] at this
        rw [this] at hpath
        simp at hpath
      · simp only []
        intro hmem
        have : path.any (fun c => c == '\n') = true := by
          rw [List.any_eq_true]
          exact ⟨'\n', hmem, by simp⟩
        rw [this] at hnl
        cases hnl

theorem checkRepository_invalid_iff (compile : String → Option Regexp) (w : World) (a : Agent)
    (hready : a.ready = true) :
    checkRepository compile w a
        = .returned (some (.invalidRepositoryURL a.rules.RepositoryURL)) a [] ↔
      (FindStringSubmatch a.rules.RepositoryURL).length ≠ 3 := by
  constructor
  · intro heq hlen
    rcases checkRepository_cases compile w a with ⟨h, _⟩ | ⟨_, err, h⟩ | ⟨_, _, names, _, h⟩
    · rw [hready] at h; cases h
    · unfold checkRepository at heq
      simp only [hready, hlen, Bool.not_true, Bool.false_eq_true, if_false,
        bne_self_eq_false] at heq
      split at heq
      · cases heq
      · cases heq
      · split at heq
        · cases heq
        · cases heq
    · rw [h] at heq
      split at heq
      · cases heq
      · cases heq
  · intro hlen
    unfold checkRepository
    simp [hready, hlen]

/-- C10, for paths free of line feeds. Once `ready` is true, `checkRepository` returns the
`invalid repository URL format` error exactly when the URL is not of the form
host, `/`, path with the host not empty and free of `/` and the path not empty
and free of line feeds.  For a URL of that form the first `/` separates the two
parts: `parts[1]` is the host, `parts[2]` is all the text after the first `/`,
and host, `/` and path put together give the URL back. -/
theorem checkRepository_url_format (compile : String → Option Regexp) (w : World) (a : Agent)
    (hready : a.ready = true) :
    (checkRepository compile w a
        = .returned (some (.invalidRepositoryURL a.rules.RepositoryURL)) a [] ↔
      ¬ ∃ host path : String,
        HostSlashPath a.rules.RepositoryURL host path ∧ '\n' ∉ path.data) ∧
    (∀ host path : String,
      HostSlashPath a.rules.RepositoryURL host path → '\n' ∉ path.data →
      FindStringSubmatch a.rules.RepositoryURL = [a.rules.RepositoryURL, host, path] ∧
      registryOf a = host ∧ repositoryOf a = path ∧
      registryOf a ++ "/" ++ repositoryOf a = a.rules.RepositoryURL) := by
  have good : ∀ host path : String,
      HostSlashPath a.rules.RepositoryURL host path → '\n' ∉ path.data →
      FindStringSubmatch a.rules.RepositoryURL = [a.rules.RepositoryURL, host, path] := by
    rintro host path ⟨hform, hhost, hslash, hpath⟩ hnl
    rw [FindStringSubmatch_of_form _ host path hform hslash]
    have h1 : host.data.isEmpty = false := by
      cases hd : host.data with
      | nil => exact absurd (String.ext hd) hhost
      | cons c cs => rfl
    have h2 : path.data.isEmpty = false := by
      cases hd : path.data with
      | nil => exact absurd (String.ext hd) hpath
      | cons c cs => rfl
    have h3 : path.data.any (fun c => c == '\n') = false := by
      rw [Bool.eq_false_iff]
      intro h
      rw [List.any_eq_true] at h
      obtain ⟨c, hc, hcn⟩ := h
      have : c = '\n' := by simpa using hcn
      exact hnl (this ▸ hc)
    simp [h1, h2, h3]
  constructor
  · rw [checkRepository_invalid_iff compile w a hready]
    constructor
    · rintro hlen ⟨host, path, hf, hnl⟩
      rw [good host path hf hnl] at hlen
      simp at hlen
    · intro hno hlen
      rcases FindStringSubmatch_cases a.rules.RepositoryURL with h | ⟨host, path, hf, hnl, _⟩
      · rw [h] at hlen; simp at hlen
      · exact hno ⟨host, path, hf, hnl⟩
  · intro host path hf hnl
    have hg := good host path hf hnl
    refine ⟨hg, ?_, ?_, ?_⟩
    · simp [registryOf, hg]
    · simp [repositoryOf, hg]
    · simp only [registryOf, repositoryOf, hg]
      simpa using hf.1.symm

theorem checkRepository_url_format_witness :
    demoAgent.ready = true ∧
    HostSlashPath demoAgent.rules.RepositoryURL "registry:5000" "demo" ∧
    FindStringSubmatch demoAgent.rules.RepositoryURL
      = ["registry:5000/demo", "registry:5000", "demo"] :=
  ⟨rfl, ⟨by decide, by decide, by decide, by decide⟩,
    ((checkRepository_url_format demoCompile (demoWorld [] "" []) demoAgent rfl).2
      "registry:5000" "demo" ⟨by decide, by decide, by decide, by decide⟩ (by decide)).1⟩

/-- C10, at a path with a line feed. The URL `h/a`, line feed, `b` has the form host, `/`,
path with the host `h` not empty and free of `/` and a path that is not empty,
and `checkRepository` returns the `invalid repository URL format` error for
it. -/
theorem url_with_line_feed_rejected :
    HostSlashPath "h/a\nb" "h" "a\nb" ∧
    checkRepository demoCompile (demoWorld [] "" [])
        { demoAgent with rules := { demoAgent.rules with RepositoryURL := "h/a\nb" } }
      = .returned (some (.invalidRepositoryURL "h/a\nb"))
          { demoAgent with rules := { demoAgent.rules with RepositoryURL := "h/a\nb" } } [] :=
  ⟨⟨by decide, by decide, by decide, by decide⟩, rfl⟩

/-! ## Applying a manifest stream -/

/-- One pass of the loop of `KubeClient.Apply` after `dec.Decode` returned nil:
the object is never nil, so the pass goes on to the REST mapping whatever the
document held. -/
theorem Apply_stored (k : KubeClient) (i : Nat) (fields : List (String × YamlValue))
    (rest : List DecodeOutcome) :
    k.Apply i (.stored fields :: rest) =
      match k.discoveryMapper (nestedString fields ["apiVersion"])
          (nestedString fields ["kind"]) with
      | none => (some .restMapping, [])
      | some gvr =>
        if k.client i (requestFor gvr fields) then
          ((k.Apply (i + 1) rest).1, requestFor gvr fields :: (k.Apply (i + 1) rest).2)
        else (some .apply, [requestFor gvr fields]) := by
  rw [KubeClient.Apply]
  show (match k.discoveryMapper (nestedString fields ["apiVersion"])
        (nestedString fields ["kind"]) with
      | none => (some KubeError.restMapping, [])
      | some gvr =>
        if !k.client i (requestFor gvr fields) then (some KubeError.apply, [requestFor gvr fields])
        else ((k.Apply (i + 1) rest).1, requestFor gvr fields :: (k.Apply (i + 1) rest).2)) = _
  cases k.discoveryMapper (nestedString fields ["apiVersion"]) (nestedString fields ["kind"]) with
  | none => rfl
  | some gvr =>
    simp only []
    cases k.client i (requestFor gvr fields) <;> rfl

/-- An empty document is not skipped: `KubeClient.Apply` asks for the REST mapping
of the empty group, version and kind, returns the error when there is none,
and otherwise submits an apply request for the empty object. -/
theorem Apply_empty_document (k : KubeClient) (i : Nat) (rest : List DecodeOutcome) :
    (k.discoveryMapper "" "" = none → k.Apply i (.stored [] :: rest) = (some .restMapping, [])) ∧
    (∀ gvr, k.discoveryMapper "" "" = some gvr →
      ∃ request : ApplyRequest, request.Name = "" ∧ request.obj.Object = some [] ∧
        (k.Apply i (.stored [] :: rest)).2.head? = some request) := by
  have h := Apply_stored k i [] rest
  simp only [nestedString, fieldOf] at h
  constructor
  · intro hm
    rw [h, hm]
  · intro gvr hm
    rw [h, hm]
    simp only []
    split
    · exact ⟨_, rfl, rfl, rfl⟩
    · exact ⟨_, rfl, rfl, rfl⟩

/-- When `KubeClient.Apply` returns nil it has submitted one apply request for
each document of the stream, in the order of the stream, empty documents
included. -/
theorem Apply_nil_requests (k : KubeClient) (stream : List DecodeOutcome) :
    ∀ i : Nat, (k.Apply i stream).1 = none →
      stream.map some =
        (k.Apply i stream).2.map (fun request =>
          match request.obj.Object with
          | some fields => some (DecodeOutcome.stored fields)
          | none => none) := by
  induction stream with
  | nil => intro i _; rfl
  | cons o rest ih =>
    intro i h
    cases o with
    | failed => simp [KubeClient.Apply] at h
    | stored fields =>
      rw [Apply_stored] at h ⊢
      cases hm : k.discoveryMapper (nestedString fields ["apiVersion"])
          (nestedString fields ["kind"]) with
      | none => simp [hm] at h
      | some gvr =>
        simp only [hm] at h ⊢
        cases hc : k.client i (requestFor gvr fields) with
        | false => simp [hc] at h
        | true =>
          simp only [hc, if_true] at h ⊢
          rw [List.map_cons, List.map_cons, ih (i + 1) h]
          rfl

/-- C11. For the stream of a ConfigMap `a`, an empty document and a ConfigMap
`b`, read by a decoder that returns nil for the empty document and stores no
key, on a cluster whose discovery knows the kind `ConfigMap` only,
`KubeClient.Apply` does not skip the empty document: it returns the REST mapping
error raised for the empty object, and the only apply request it has submitted
is the one for `a`; the document `b` that follows is not applied. -/
theorem apply_stops_at_empty_document :
    (demoKube.Apply 0
      [.stored (demoConfigMap "a"), .stored [], .stored (demoConfigMap "b")]).1
      = some .restMapping ∧
    (demoKube.Apply 0
      [.stored (demoConfigMap "a"), .stored [], .stored (demoConfigMap "b")]).2.map
        (fun request => request.Name)
      = ["a"] ∧
    (demoKube.Apply 0 [.stored (demoConfigMap "a"), .stored (demoConfigMap "b")]).1 = none ∧
    (demoKube.Apply 0 [.stored (demoConfigMap "a"), .stored (demoConfigMap "b")]).2.map
        (fun request => request.Name)
      = ["a", "b"] := by
  refine ⟨by decide, by decide, by decide, by decide⟩

end GitopsAgent
